import Mathlib

/-!
Verification development for the l0-sampler repository.

The repository maintains linear sketches of an integer vector `a` of
length `n` under a stream of updates `a[i] += Delta`:

* `plain/sparse_recovery/OneSparseRecoverer.py` — exact 1-sparse recovery
  with counters `iota`, `fi`, `tau`;
* `sparse_recovery/OneSparseRecoverer.py` — a variant with a different
  prime and a tri-valued `recover`;
* `plain_v2/SparseRecoverer.py` and `sparse_recovery/SparseRecoverer.py`
  — `rows × columns` grids of 1-sparse cells;
* `L0Sampler.py` and `fast/L0Sampler.py` — multi-level samplers;
* `tools/hash_function.py` and `tools/primality_test.py` — k-independent
  polynomial hashing and the prime oracle.

Python's `%` on ints is floor-convention (sign of the divisor) and `//`
is floor division; we embed them as `Int.fmod` / `Int.fdiv`.  Python's
three-argument `pow(z, e, p)` is embedded as `(z ^ e).fmod p`.
Randomness (`random.randint`, hash coefficients, witnesses `z`) is made
an explicit parameter; the set of values a `randint` call can produce is
embedded as the corresponding integer interval.
-/

/-- Python's `%` operator on integers: floor-convention remainder. -/
def pymod (a b : ℤ) : ℤ := Int.fmod a b

/-- Python's `//` operator on integers: floor division. -/
def pydiv (a b : ℤ) : ℤ := Int.fdiv a b

/-- Python's three-argument `pow(z, e, p)` for a positive modulus. -/
def pypow (z : ℤ) (e : ℕ) (p : ℤ) : ℤ := pymod (z ^ e) p

theorem pymod_eq_emod (a : ℤ) {b : ℤ} (hb : 0 ≤ b) : pymod a b = a % b :=
  Int.fmod_eq_emod a hb

theorem pydiv_eq_ediv (a : ℤ) {b : ℤ} (hb : 0 ≤ b) : pydiv a b = a / b :=
  Int.fdiv_eq_ediv a hb

theorem pymod_eq_zero_of_dvd {a b : ℤ} (hb : b ≠ 0) (h : b ∣ a) : pymod a b = 0 := by
  obtain ⟨c, rfl⟩ := h
  have hdiv : Int.fdiv (b * c) b = c := Int.mul_fdiv_cancel_left c hb
  have := Int.fmod_add_fdiv (b * c) b
  rw [hdiv] at this
  unfold pymod
  omega

theorem pydiv_mul_cancel {a b : ℤ} (hb : b ≠ 0) : pydiv (a * b) b = a :=
  Int.mul_fdiv_cancel a hb

theorem pymod_self_of_range {a b : ℤ} (h0 : 0 ≤ a) (h1 : a < b) : pymod a b = a := by
  rw [pymod_eq_emod a (by omega)]
  exact Int.emod_eq_of_lt h0 h1

/-! ### Prime oracle — `tools/primality_test.py`

`PrimeGetter.get_next_prime(n)` starts at `n + 1`, skips to the next odd
number if that is even, and then walks upward in steps of two until
Miller–Rabin accepts.  Miller–Rabin is randomized (Monte Carlo); we
idealize it as true primality, which is its intended behaviour, so
`get_next_prime n` is the smallest odd prime strictly greater than `n`.
The memoization cache is semantically transparent and not modelled. -/

def nextPrimePred (n p : ℕ) : Prop := n < p ∧ p % 2 = 1 ∧ Nat.Prime p

instance (n p : ℕ) : Decidable (nextPrimePred n p) := by
  unfold nextPrimePred; infer_instance

theorem nextPrimeExists (n : ℕ) : ∃ p, nextPrimePred n p := by
  obtain ⟨p, hle, hp⟩ := Nat.exists_infinite_primes (max n 2 + 1)
  refine ⟨p, by omega, ?_, hp⟩
  rcases hp.eq_two_or_odd' with h2 | hodd
  · omega
  · exact Nat.odd_iff.mp hodd

def get_next_prime (n : ℕ) : ℕ := Nat.find (nextPrimeExists n)

theorem get_next_prime_spec (n : ℕ) : nextPrimePred n (get_next_prime n) :=
  Nat.find_spec (nextPrimeExists n)

theorem get_next_prime_gt (n : ℕ) : n < get_next_prime n :=
  (get_next_prime_spec n).1

theorem get_next_prime_prime (n : ℕ) : Nat.Prime (get_next_prime n) :=
  (get_next_prime_spec n).2.2

theorem get_next_prime_pos (n : ℕ) : 0 < get_next_prime n :=
  (get_next_prime_prime n).pos

theorem gnp_1 : get_next_prime 1 = 3 := by
  rw [get_next_prime, Nat.find_eq_iff]
  exact ⟨⟨by norm_num, by norm_num, by norm_num⟩, by decide⟩

theorem gnp_2 : get_next_prime 2 = 3 := by
  rw [get_next_prime, Nat.find_eq_iff]
  exact ⟨⟨by norm_num, by norm_num, by norm_num⟩, by decide⟩

theorem gnp_7 : get_next_prime 7 = 11 := by
  rw [get_next_prime, Nat.find_eq_iff]
  exact ⟨⟨by norm_num, by norm_num, by norm_num⟩, by decide⟩

theorem gnp_16 : get_next_prime 16 = 17 := by
  rw [get_next_prime, Nat.find_eq_iff]
  exact ⟨⟨by norm_num, by norm_num, by norm_num⟩, by decide⟩

theorem gnp_100 : get_next_prime 100 = 101 := by
  rw [get_next_prime, Nat.find_eq_iff]
  refine ⟨⟨by norm_num, by norm_num, by norm_num⟩, ?_⟩
  intro m hm hP
  exact absurd hP.1 (by omega)

theorem gnp_400 : get_next_prime 400 = 401 := by
  rw [get_next_prime, Nat.find_eq_iff]
  refine ⟨⟨by norm_num, by norm_num, by norm_num⟩, ?_⟩
  intro m hm hP
  exact absurd hP.1 (by omega)

theorem gnp_700 : get_next_prime 700 = 701 := by
  rw [get_next_prime, Nat.find_eq_iff]
  refine ⟨⟨by norm_num, by norm_num, by norm_num⟩, ?_⟩
  intro m hm hP
  exact absurd hP.1 (by omega)

theorem gnp_1600 : get_next_prime 1600 = 1601 := by
  rw [get_next_prime, Nat.find_eq_iff]
  refine ⟨⟨by norm_num, by norm_num, by norm_num⟩, ?_⟩
  intro m hm hP
  exact absurd hP.1 (by omega)

/-! ### Hash factory — `tools/hash_function.py`

`pick_k_ind_hash_function(n, w, k)` computes `p = get_next_prime(max(n, w))`,
draws `a = [randint(0, p) for i in range(k)]` and overwrites
`a[0] = randint(1, p)` (Python's `random.randint` is inclusive at both
ends), and returns the closure

    def h(x):
        res = 0; pow_x = 1
        for i in range(k):
            res = (res + pow_x * a[k - i - 1]) % p
            pow_x = (pow_x * x) % p
        return res % w

The loop walks the coefficient list from its last entry to its first,
so we run it on `a.reverse`.  The drawn coefficient list is an explicit
parameter; the intervals a draw can come from are `coefDraws`/`leadDraws`. -/

def hashP (n w : ℕ) : ℕ := get_next_prime (max n w)

/-- Values `randint(0, p)` can produce for the non-leading coefficients. -/
def coefDraws (p : ℤ) : Finset ℤ := Finset.Icc 0 p

/-- Values `randint(1, p)` can produce for the leading coefficient `a[0]`. -/
def leadDraws (p : ℤ) : Finset ℤ := Finset.Icc 1 p

def hashLoop (p x : ℤ) : List ℤ → ℤ → ℤ → ℤ
  | [], res, _ => res
  | c :: rest, res, pw => hashLoop p x rest (pymod (res + pw * c) p) (pymod (pw * x) p)

/-- The hash closure `h`: Horner-style accumulation over `a[k-1], …, a[0]`,
followed by the final reduction `res % w`. -/
def hashFun (a : List ℤ) (p w x : ℤ) : ℤ := pymod (hashLoop p x a.reverse 0 1) w

theorem hashFun_nonneg (a : List ℤ) (p x : ℤ) {w : ℤ} (hw : 0 < w) :
    0 ≤ hashFun a p w x := by
  unfold hashFun
  rw [pymod_eq_emod _ (by omega)]
  exact Int.emod_nonneg _ (by omega)

theorem hashFun_lt (a : List ℤ) (p x : ℤ) {w : ℤ} (hw : 0 < w) :
    hashFun a p w x < w := by
  unfold hashFun
  rw [pymod_eq_emod _ (by omega)]
  exact Int.emod_lt_of_pos _ hw

namespace Plain

/-! ### 1-sparse recoverer — `src/plain/sparse_recovery/OneSparseRecoverer.py` -/

structure OneSparseRecoverer where
  n : ℕ
  p : ℤ
  z : ℤ
  iota : ℤ
  fi : ℤ
  tau : ℤ
deriving DecidableEq

/-- The prime of the plain recoverer: `prime_getter.get_next_prime(n*100)`. -/
def osrP (n : ℕ) : ℤ := (get_next_prime (n * 100) : ℤ)

/-- Values the constructor's `randint(1, self.p - 1)` can produce for `z`. -/
def zDraws (p : ℤ) : Finset ℤ := Finset.Icc 1 (p - 1)

/-- Construction with vector length `n` and drawn witness `z`; the three
counters start at zero. -/
def init (n : ℕ) (z : ℤ) : OneSparseRecoverer := ⟨n, osrP n, z, 0, 0, 0⟩

/-- Update `(i, Delta)`: `iota += (i+1)*Delta`, `fi += Delta`,
`tau = (tau + Delta * pow(z, i + 1, p)) % p`. -/
def update (st : OneSparseRecoverer) (i : ℕ) (Delta : ℤ) : OneSparseRecoverer :=
  { st with
    iota := st.iota + ((i : ℤ) + 1) * Delta
    fi := st.fi + Delta
    tau := pymod (st.tau + Delta * pypow st.z (i + 1) st.p) st.p }

def runStream (st : OneSparseRecoverer) (s : List (ℕ × ℤ)) : OneSparseRecoverer :=
  s.foldl (fun acc u => update acc u.1 u.2) st

/-- Recovery `recover()`: the guarded success test; `None` is `none`. -/
def recover (st : OneSparseRecoverer) : Option (ℤ × ℤ) :=
  if st.fi ≠ 0 ∧ pymod st.iota st.fi = 0 ∧ 0 < pydiv st.iota st.fi ∧
      st.tau = pymod (st.fi * pypow st.z (pydiv st.iota st.fi).toNat st.p) st.p
  then some (pydiv st.iota st.fi - 1, st.fi)
  else none

/-- Combination `add(other)`: raises (here `none`) unless `z`, `p` and `n` all match;
otherwise adds `iota` and `fi` exactly and `tau` modulo `p`. -/
def add (st other : OneSparseRecoverer) : Option OneSparseRecoverer :=
  if st.z = other.z ∧ st.p = other.p ∧ st.n = other.n
  then some { st with
              iota := st.iota + other.iota
              fi := st.fi + other.fi
              tau := pymod (st.tau + other.tau) st.p }
  else none

/-- Combination `subtract(other)`: like `add` with subtraction. -/
def subtract (st other : OneSparseRecoverer) : Option OneSparseRecoverer :=
  if st.z = other.z ∧ st.p = other.p ∧ st.n = other.n
  then some { st with
              iota := st.iota - other.iota
              fi := st.fi - other.fi
              tau := pymod (st.tau - other.tau) st.p }
  else none

end Plain

/-! ### Net vector of an update stream -/

/-- The net vector entry at `i` produced by an update stream. -/
def net (s : List (ℕ × ℤ)) (i : ℕ) : ℤ := ((s.filter (fun u => u.1 = i)).map Prod.snd).sum

/-- Weighted total of a stream; specializes to each of the three counters. -/
def streamSum (f : ℕ → ℤ) (s : List (ℕ × ℤ)) : ℤ := (s.map (fun u => f u.1 * u.2)).sum

theorem net_nil (i : ℕ) : net [] i = 0 := rfl

theorem net_cons (j : ℕ) (d : ℤ) (s : List (ℕ × ℤ)) (i : ℕ) :
    net ((j, d) :: s) i = (if j = i then d else 0) + net s i := by
  unfold net
  by_cases h : j = i <;> simp [h]

theorem streamSum_nil (f : ℕ → ℤ) : streamSum f [] = 0 := rfl

theorem streamSum_cons (f : ℕ → ℤ) (j : ℕ) (d : ℤ) (s : List (ℕ × ℤ)) :
    streamSum f ((j, d) :: s) = f j * d + streamSum f s := by
  unfold streamSum
  simp

/-- A weighted stream total equals the weighted sum of the net vector,
provided all stream indices are below `n`. -/
theorem streamSum_eq_net_sum (f : ℕ → ℤ) (n : ℕ) :
    ∀ s : List (ℕ × ℤ), (∀ u ∈ s, u.1 < n) →
      streamSum f s = ∑ i ∈ Finset.range n, f i * net s i := by
  intro s
  induction s with
  | nil => intro _; simp [streamSum, net]
  | cons u rest ih =>
    intro h
    obtain ⟨j, d⟩ := u
    have hj : j < n := h (j, d) (List.mem_cons_self _ _)
    have hrest : ∀ u ∈ rest, u.1 < n := fun u hu => h u (List.mem_cons_of_mem _ hu)
    rw [streamSum_cons, ih hrest]
    have hsplit : ∀ i : ℕ, f i * net ((j, d) :: rest) i
        = (if i = j then f i * d else 0) + f i * net rest i := by
      intro i
      rw [net_cons]
      by_cases hij : j = i
      · subst hij; simp [mul_add]
      · have : i ≠ j := fun hc => hij hc.symm
        simp [hij, this]
    calc f j * d + ∑ i ∈ Finset.range n, f i * net rest i
        = (∑ i ∈ Finset.range n, (if i = j then f i * d else 0))
            + ∑ i ∈ Finset.range n, f i * net rest i := by
          rw [Finset.sum_ite_eq' (Finset.range n) j (fun i => f i * d)]
          simp [Finset.mem_range.mpr hj]
      _ = ∑ i ∈ Finset.range n, f i * net ((j, d) :: rest) i := by
          rw [← Finset.sum_add_distrib]
          exact Finset.sum_congr rfl (fun i _ => (hsplit i).symm)

/-! ### Modular-arithmetic helper lemmas (positive modulus) -/

theorem pymod_pymod {p : ℤ} (hp : 0 < p) (x : ℤ) : pymod (pymod x p) p = pymod x p := by
  rw [pymod_eq_emod x (by omega), pymod_eq_emod (x % p) (by omega)]
  exact Int.emod_emod_of_dvd x dvd_rfl

theorem pymod_add_cancel_left {p : ℤ} (hp : 0 < p) (x y : ℤ) :
    pymod (pymod x p + y) p = pymod (x + y) p := by
  rw [pymod_eq_emod x (by omega), pymod_eq_emod (x % p + y) (by omega),
    pymod_eq_emod (x + y) (by omega)]
  conv_rhs => rw [Int.add_emod]
  rw [Int.add_emod (x % p) y, Int.emod_emod_of_dvd x dvd_rfl]

theorem pymod_add_cancel_right {p : ℤ} (hp : 0 < p) (x y : ℤ) :
    pymod (x + pymod y p) p = pymod (x + y) p := by
  rw [add_comm x (pymod y p), pymod_add_cancel_left hp, add_comm]

theorem pymod_sub_cancel_right {p : ℤ} (hp : 0 < p) (x y : ℤ) :
    pymod (x - pymod y p) p = pymod (x - y) p := by
  rw [pymod_eq_emod y (by omega), pymod_eq_emod (x - y % p) (by omega),
    pymod_eq_emod (x - y) (by omega)]
  conv_rhs => rw [Int.sub_emod]
  rw [Int.sub_emod x (y % p), Int.emod_emod_of_dvd y dvd_rfl]

theorem pymod_mul_cancel_right {p : ℤ} (hp : 0 < p) (c d w : ℤ) :
    pymod (c + d * pymod w p) p = pymod (c + d * w) p := by
  rw [pymod_eq_emod w (by omega), pymod_eq_emod (c + d * (w % p)) (by omega),
    pymod_eq_emod (c + d * w) (by omega)]
  rw [Int.add_emod c (d * (w % p)), Int.add_emod c (d * w)]
  congr 1
  congr 1
  rw [Int.mul_emod d (w % p), Int.emod_emod_of_dvd w dvd_rfl, ← Int.mul_emod]

namespace Plain

theorem runStream_nil (st : OneSparseRecoverer) : runStream st [] = st := rfl

theorem runStream_cons (st : OneSparseRecoverer) (u : ℕ × ℤ) (s : List (ℕ × ℤ)) :
    runStream st (u :: s) = runStream (update st u.1 u.2) s := rfl

theorem runStream_n (st : OneSparseRecoverer) (s : List (ℕ × ℤ)) :
    (runStream st s).n = st.n := by
  induction s generalizing st with
  | nil => rfl
  | cons u rest ih => rw [runStream_cons]; exact ih _

theorem runStream_p (st : OneSparseRecoverer) (s : List (ℕ × ℤ)) :
    (runStream st s).p = st.p := by
  induction s generalizing st with
  | nil => rfl
  | cons u rest ih => rw [runStream_cons]; exact ih _

theorem runStream_z (st : OneSparseRecoverer) (s : List (ℕ × ℤ)) :
    (runStream st s).z = st.z := by
  induction s generalizing st with
  | nil => rfl
  | cons u rest ih => rw [runStream_cons]; exact ih _

theorem runStream_iota (st : OneSparseRecoverer) (s : List (ℕ × ℤ)) :
    (runStream st s).iota = st.iota + streamSum (fun i => (i : ℤ) + 1) s := by
  induction s generalizing st with
  | nil => simp [runStream_nil, streamSum_nil]
  | cons u rest ih =>
    obtain ⟨j, d⟩ := u
    rw [runStream_cons, ih, streamSum_cons]
    show st.iota + ((j : ℤ) + 1) * d + streamSum _ rest = _
    ring

theorem runStream_fi (st : OneSparseRecoverer) (s : List (ℕ × ℤ)) :
    (runStream st s).fi = st.fi + streamSum (fun _ => 1) s := by
  induction s generalizing st with
  | nil => simp [runStream_nil, streamSum_nil]
  | cons u rest ih =>
    obtain ⟨j, d⟩ := u
    rw [runStream_cons, ih, streamSum_cons]
    show st.fi + d + streamSum _ rest = st.fi + (1 * d + streamSum _ rest)
    ring

theorem runStream_tau (st : OneSparseRecoverer) (s : List (ℕ × ℤ))
    (hp : 0 < st.p) (hred : pymod st.tau st.p = st.tau) :
    (runStream st s).tau = pymod (st.tau + streamSum (fun i => st.z ^ (i + 1)) s) st.p := by
  induction s generalizing st with
  | nil => rw [runStream_nil, streamSum_nil, add_zero, hred]
  | cons u rest ih =>
    obtain ⟨j, d⟩ := u
    rw [runStream_cons]
    have hp' : 0 < (update st j d).p := hp
    have hred' : pymod (update st j d).tau (update st j d).p = (update st j d).tau :=
      pymod_pymod hp _
    rw [ih _ hp' hred', streamSum_cons]
    show pymod (pymod (st.tau + d * pypow st.z (j + 1) st.p) st.p
        + streamSum (fun i => st.z ^ (i + 1)) rest) st.p
      = pymod (st.tau + (st.z ^ (j + 1) * d + streamSum (fun i => st.z ^ (i + 1)) rest)) st.p
    rw [pymod_add_cancel_left hp]
    unfold pypow
    have h1 : st.tau + d * pymod (st.z ^ (j + 1)) st.p
          + streamSum (fun i => st.z ^ (i + 1)) rest
        = (st.tau + streamSum (fun i => st.z ^ (i + 1)) rest)
          + d * pymod (st.z ^ (j + 1)) st.p := by ring
    rw [h1, pymod_mul_cancel_right hp]
    congr 1
    ring

end Plain

namespace SRV

/-! ### 1-sparse recoverer — `src/sparse_recovery/OneSparseRecoverer.py`

Identical counters and update rule as the plain variant, but the prime is
`get_next_prime(n*n)` and `recover` is tri-valued: `False` for an empty
sketch, `True` for "more than one non-zero element", or the pair.
Note: the source guards with `self.iota % self.fi == 0` before computing
`int(self.iota / self.fi)` with Python float division; under that guard
the quotient is an exact integer, which we embed as floor division. -/

structure OneSparseRecoverer where
  n : ℕ
  p : ℤ
  z : ℤ
  iota : ℤ
  fi : ℤ
  tau : ℤ
deriving DecidableEq

/-- The prime of this variant: `get_next_prime(n*n)`. -/
def osrP (n : ℕ) : ℤ := (get_next_prime (n * n) : ℤ)

/-- Values the constructor's `randint(1, self.p - 1)` can produce for `z`. -/
def zDraws (p : ℤ) : Finset ℤ := Finset.Icc 1 (p - 1)

def init (n : ℕ) (z : ℤ) : OneSparseRecoverer := ⟨n, osrP n, z, 0, 0, 0⟩

def update (st : OneSparseRecoverer) (i : ℕ) (Delta : ℤ) : OneSparseRecoverer :=
  { st with
    iota := st.iota + ((i : ℤ) + 1) * Delta
    fi := st.fi + Delta
    tau := pymod (st.tau + Delta * pypow st.z (i + 1) st.p) st.p }

def runStream (st : OneSparseRecoverer) (s : List (ℕ × ℤ)) : OneSparseRecoverer :=
  s.foldl (fun acc u => update acc u.1 u.2) st

/-- Return type of `recover` in this variant: Python's `False`, `True`,
or the recovered `(index, value)` tuple. -/
inductive RecoverResult where
  | asFalse : RecoverResult
  | asTrue : RecoverResult
  | pair : ℤ → ℤ → RecoverResult
deriving DecidableEq

def recover (st : OneSparseRecoverer) : RecoverResult :=
  if st.fi = 0 then .asFalse
  else if pymod st.iota st.fi = 0 ∧ 0 < pydiv st.iota st.fi ∧
      st.tau = pymod (st.fi * pypow st.z (pydiv st.iota st.fi).toNat st.p) st.p
  then .pair (pydiv st.iota st.fi - 1) st.fi
  else .asTrue

/-- Combination `add(other)` (this variant has no `subtract`). -/
def add (st other : OneSparseRecoverer) : Option OneSparseRecoverer :=
  if st.z = other.z ∧ st.p = other.p ∧ st.n = other.n
  then some { st with
              iota := st.iota + other.iota
              fi := st.fi + other.fi
              tau := pymod (st.tau + other.tau) st.p }
  else none

/-- Field-for-field transport into the plain variant, used to share the
counter closed-form lemmas (the update rules are syntactically equal). -/
def toPlain (st : OneSparseRecoverer) : Plain.OneSparseRecoverer :=
  ⟨st.n, st.p, st.z, st.iota, st.fi, st.tau⟩

theorem toPlain_update (st : OneSparseRecoverer) (i : ℕ) (Delta : ℤ) :
    toPlain (update st i Delta) = Plain.update (toPlain st) i Delta := rfl

theorem toPlain_runStream (st : OneSparseRecoverer) (s : List (ℕ × ℤ)) :
    toPlain (runStream st s) = Plain.runStream (toPlain st) s := by
  induction s generalizing st with
  | nil => rfl
  | cons u rest ih => exact ih _

end SRV

theorem pymod_add_pymod {p : ℤ} (hp : 0 < p) (x y : ℤ) :
    pymod (pymod x p + pymod y p) p = pymod (x + y) p := by
  rw [pymod_add_cancel_left hp, pymod_add_cancel_right hp]

theorem pymod_sub_pymod {p : ℤ} (hp : 0 < p) (x y : ℤ) :
    pymod (pymod x p - pymod y p) p = pymod (x - y) p := by
  rw [pymod_sub_cancel_right hp, sub_eq_add_neg, sub_eq_add_neg,
    pymod_add_cancel_left hp]

theorem pymod_zero_left {p : ℤ} (hp : 0 < p) : pymod 0 p = 0 :=
  pymod_self_of_range le_rfl hp

theorem osr_eq (a b : Plain.OneSparseRecoverer) (h1 : a.n = b.n) (h2 : a.p = b.p)
    (h3 : a.z = b.z) (h4 : a.iota = b.iota) (h5 : a.fi = b.fi) (h6 : a.tau = b.tau) :
    a = b := by
  cases a; cases b; simp_all

/-- Counter closed forms for a run from zeroed counters with arbitrary
stored prime `p` and witness `z` (shared by both 1-sparse variants). -/
theorem countersFromZero (m : ℕ) (p z : ℤ) (hp : 0 < p) (n : ℕ) (s : List (ℕ × ℤ))
    (h : ∀ u ∈ s, u.1 < n) :
    (Plain.runStream ⟨m, p, z, 0, 0, 0⟩ s).iota
        = ∑ i ∈ Finset.range n, ((i : ℤ) + 1) * net s i
  ∧ (Plain.runStream ⟨m, p, z, 0, 0, 0⟩ s).fi = ∑ i ∈ Finset.range n, net s i
  ∧ (Plain.runStream ⟨m, p, z, 0, 0, 0⟩ s).tau
        = (∑ i ∈ Finset.range n, net s i * z ^ (i + 1)) % p := by
  refine ⟨?_, ?_, ?_⟩
  · rw [Plain.runStream_iota, streamSum_eq_net_sum _ n s h]
    simp
  · rw [Plain.runStream_fi, streamSum_eq_net_sum _ n s h]
    simp
  · rw [Plain.runStream_tau ⟨m, p, z, 0, 0, 0⟩ s hp (pymod_zero_left hp)]
    show pymod (0 + streamSum (fun i => z ^ (i + 1)) s) p = _
    rw [zero_add, streamSum_eq_net_sum _ n s h, pymod_eq_emod _ (by omega)]
    congr 1
    exact Finset.sum_congr rfl (fun i _ => mul_comm _ _)

/-- Transport of the closed forms to the `sparse_recovery` variant. -/
theorem countersFromZeroSRV (m : ℕ) (p z : ℤ) (hp : 0 < p) (n : ℕ) (s : List (ℕ × ℤ))
    (h : ∀ u ∈ s, u.1 < n) :
    (SRV.runStream ⟨m, p, z, 0, 0, 0⟩ s).iota
        = ∑ i ∈ Finset.range n, ((i : ℤ) + 1) * net s i
  ∧ (SRV.runStream ⟨m, p, z, 0, 0, 0⟩ s).fi = ∑ i ∈ Finset.range n, net s i
  ∧ (SRV.runStream ⟨m, p, z, 0, 0, 0⟩ s).tau
        = (∑ i ∈ Finset.range n, net s i * z ^ (i + 1)) % p := by
  have ht := SRV.toPlain_runStream ⟨m, p, z, 0, 0, 0⟩ s
  have h1 : (SRV.runStream ⟨m, p, z, 0, 0, 0⟩ s).iota
      = (Plain.runStream (SRV.toPlain ⟨m, p, z, 0, 0, 0⟩) s).iota := by
    rw [← ht]; rfl
  have h2 : (SRV.runStream ⟨m, p, z, 0, 0, 0⟩ s).fi
      = (Plain.runStream (SRV.toPlain ⟨m, p, z, 0, 0, 0⟩) s).fi := by
    rw [← ht]; rfl
  have h3 : (SRV.runStream ⟨m, p, z, 0, 0, 0⟩ s).tau
      = (Plain.runStream (SRV.toPlain ⟨m, p, z, 0, 0, 0⟩) s).tau := by
    rw [← ht]; rfl
  obtain ⟨g1, g2, g3⟩ := countersFromZero m p z hp n s h
  exact ⟨h1.trans g1, h2.trans g2, h3.trans g3⟩

/-- Sum of a weighted net vector that is a singleton at `i`. -/
theorem sum_singleton_weight (n i : ℕ) (hi : i < n) (g : ℕ → ℤ) (v : ℤ)
    (a : ℕ → ℤ) (ha : ∀ j, j < n → a j = if j = i then v else 0) :
    ∑ j ∈ Finset.range n, g j * a j = g i * v := by
  have : ∀ j ∈ Finset.range n, g j * a j = if j = i then g j * v else 0 := by
    intro j hj
    rw [ha j (Finset.mem_range.mp hj)]
    by_cases hji : j = i <;> simp [hji]
  rw [Finset.sum_congr rfl this, Finset.sum_ite_eq' (Finset.range n) i (fun j => g j * v)]
  simp [Finset.mem_range.mpr hi]

/-- Success evaluation of plain `recover()` on exact singleton counters. -/
theorem plainRecoverSuccess (st : Plain.OneSparseRecoverer) (i : ℕ) (v z p : ℤ)
    (hp : 0 < p) (hv : v ≠ 0) (hfp : st.p = p) (hfz : st.z = z)
    (hio : st.iota = ((i : ℤ) + 1) * v) (hfi : st.fi = v)
    (htau : st.tau = v * z ^ (i + 1) % p) :
    Plain.recover st = some ((i : ℤ), v) := by
  have hdvd : v ∣ ((i : ℤ) + 1) * v := dvd_mul_left v ((i : ℤ) + 1)
  have hq : pydiv st.iota st.fi = (i : ℤ) + 1 := by
    rw [hio, hfi]; exact pydiv_mul_cancel hv
  have htn : ((i : ℤ) + 1).toNat = i + 1 := by omega
  unfold Plain.recover
  rw [if_pos]
  · rw [hq, hfi]
    congr 2
    omega
  · refine ⟨by rw [hfi]; exact hv, by rw [hio, hfi]; exact pymod_eq_zero_of_dvd hv hdvd,
      by rw [hq]; omega, ?_⟩
    rw [hq, htn, htau, hfi, hfz, hfp]
    unfold pypow
    have := pymod_mul_cancel_right hp 0 v (z ^ (i + 1))
    rw [zero_add, zero_add] at this
    rw [this, pymod_eq_emod _ (by omega)]

/-- Success evaluation of the `sparse_recovery` variant's `recover()`. -/
theorem srvRecoverSuccess (st : SRV.OneSparseRecoverer) (i : ℕ) (v z p : ℤ)
    (hp : 0 < p) (hv : v ≠ 0) (hfp : st.p = p) (hfz : st.z = z)
    (hio : st.iota = ((i : ℤ) + 1) * v) (hfi : st.fi = v)
    (htau : st.tau = v * z ^ (i + 1) % p) :
    SRV.recover st = SRV.RecoverResult.pair (i : ℤ) v := by
  have hdvd : v ∣ ((i : ℤ) + 1) * v := dvd_mul_left v ((i : ℤ) + 1)
  have hq : pydiv st.iota st.fi = (i : ℤ) + 1 := by
    rw [hio, hfi]; exact pydiv_mul_cancel hv
  have htn : ((i : ℤ) + 1).toNat = i + 1 := by omega
  unfold SRV.recover
  rw [if_neg (by rw [hfi]; exact hv), if_pos]
  · rw [hq, hfi]
    congr 2
    omega
  · refine ⟨by rw [hio, hfi]; exact pymod_eq_zero_of_dvd hv hdvd, by rw [hq]; omega, ?_⟩
    rw [hq, htn, htau, hfi, hfz, hfp]
    unfold pypow
    have := pymod_mul_cancel_right hp 0 v (z ^ (i + 1))
    rw [zero_add, zero_add] at this
    rw [this, pymod_eq_emod _ (by omega)]

/-- C1: for two plain 1-sparse recoverers with equal `n`, `p` and witness `z`
whose counters come from update streams with net vectors `a1` and `a2`,
`S1.add(S2)` yields exactly the state a single recoverer reaches on any
stream with net vector `a1 + a2`, and `S1.subtract(S2)` that of `a1 - a2`
(`iota` and `fi` combined exactly, `tau` modulo `p`); recovery behaviour
afterwards therefore coincides with the directly updated sketch, and the
compatibility check passes (no `ValueError`). -/
theorem one_sparse_add_subtract_linear (n : ℕ) (z : ℤ) (s1 s2 s3 s4 : List (ℕ × ℤ))
    (hb1 : ∀ u ∈ s1, u.1 < n) (hb2 : ∀ u ∈ s2, u.1 < n)
    (hb3 : ∀ u ∈ s3, u.1 < n) (hb4 : ∀ u ∈ s4, u.1 < n)
    (hadd : ∀ i, i < n → net s3 i = net s1 i + net s2 i)
    (hsub : ∀ i, i < n → net s4 i = net s1 i - net s2 i) :
    Plain.add (Plain.runStream (Plain.init n z) s1) (Plain.runStream (Plain.init n z) s2)
        = some (Plain.runStream (Plain.init n z) s3)
  ∧ Plain.subtract (Plain.runStream (Plain.init n z) s1) (Plain.runStream (Plain.init n z) s2)
        = some (Plain.runStream (Plain.init n z) s4) := by
  have hp : (0 : ℤ) < Plain.osrP n := by
    unfold Plain.osrP
    exact_mod_cast get_next_prime_pos (n * 100)
  obtain ⟨i1, f1, t1⟩ := countersFromZero n (Plain.osrP n) z hp n s1 hb1
  obtain ⟨i2, f2, t2⟩ := countersFromZero n (Plain.osrP n) z hp n s2 hb2
  obtain ⟨i3, f3, t3⟩ := countersFromZero n (Plain.osrP n) z hp n s3 hb3
  obtain ⟨i4, f4, t4⟩ := countersFromZero n (Plain.osrP n) z hp n s4 hb4
  have hinit : Plain.init n z = ⟨n, Plain.osrP n, z, 0, 0, 0⟩ := rfl
  rw [hinit] at *
  have hguard : (Plain.runStream ⟨n, Plain.osrP n, z, 0, 0, 0⟩ s1).z
        = (Plain.runStream ⟨n, Plain.osrP n, z, 0, 0, 0⟩ s2).z
      ∧ (Plain.runStream ⟨n, Plain.osrP n, z, 0, 0, 0⟩ s1).p
        = (Plain.runStream ⟨n, Plain.osrP n, z, 0, 0, 0⟩ s2).p
      ∧ (Plain.runStream ⟨n, Plain.osrP n, z, 0, 0, 0⟩ s1).n
        = (Plain.runStream ⟨n, Plain.osrP n, z, 0, 0, 0⟩ s2).n := by
    rw [Plain.runStream_z, Plain.runStream_z, Plain.runStream_p, Plain.runStream_p,
      Plain.runStream_n, Plain.runStream_n]
    exact ⟨rfl, rfl, rfl⟩
  have hiota : ∀ x ∈ Finset.range n, ((x : ℤ) + 1) * net s3 x
      = ((x : ℤ) + 1) * net s1 x + ((x : ℤ) + 1) * net s2 x := by
    intro x hx
    rw [hadd x (Finset.mem_range.mp hx)]; ring
  have hiota4 : ∀ x ∈ Finset.range n, ((x : ℤ) + 1) * net s4 x
      = ((x : ℤ) + 1) * net s1 x - ((x : ℤ) + 1) * net s2 x := by
    intro x hx
    rw [hsub x (Finset.mem_range.mp hx)]; ring
  have htau : ∀ x ∈ Finset.range n, net s3 x * z ^ (x + 1)
      = net s1 x * z ^ (x + 1) + net s2 x * z ^ (x + 1) := by
    intro x hx
    rw [hadd x (Finset.mem_range.mp hx)]; ring
  have htau4 : ∀ x ∈ Finset.range n, net s4 x * z ^ (x + 1)
      = net s1 x * z ^ (x + 1) - net s2 x * z ^ (x + 1) := by
    intro x hx
    rw [hsub x (Finset.mem_range.mp hx)]; ring
  constructor
  · unfold Plain.add
    rw [if_pos ⟨hguard.1, hguard.2.1, hguard.2.2⟩]
    congr 1
    refine osr_eq _ _ (by rw [Plain.runStream_n]; rw [Plain.runStream_n])
      (by rw [Plain.runStream_p]; rw [Plain.runStream_p])
      (by rw [Plain.runStream_z]; rw [Plain.runStream_z]) ?_ ?_ ?_
    · show (Plain.runStream _ s1).iota + (Plain.runStream _ s2).iota = _
      rw [i1, i2, i3, Finset.sum_congr rfl hiota, Finset.sum_add_distrib]
    · show (Plain.runStream _ s1).fi + (Plain.runStream _ s2).fi = _
      rw [f1, f2, f3]
      have : ∀ x ∈ Finset.range n, net s3 x = net s1 x + net s2 x := by
        intro x hx; exact hadd x (Finset.mem_range.mp hx)
      rw [Finset.sum_congr rfl this, Finset.sum_add_distrib]
    · show pymod ((Plain.runStream _ s1).tau + (Plain.runStream _ s2).tau)
          (Plain.runStream _ s1).p = _
      rw [Plain.runStream_p, t1, t2, t3, ← pymod_eq_emod _ (by omega),
        ← pymod_eq_emod _ (by omega), ← pymod_eq_emod _ (by omega),
        pymod_add_pymod hp, Finset.sum_congr rfl htau, Finset.sum_add_distrib]
  · unfold Plain.subtract
    rw [if_pos ⟨hguard.1, hguard.2.1, hguard.2.2⟩]
    congr 1
    refine osr_eq _ _ (by rw [Plain.runStream_n]; rw [Plain.runStream_n])
      (by rw [Plain.runStream_p]; rw [Plain.runStream_p])
      (by rw [Plain.runStream_z]; rw [Plain.runStream_z]) ?_ ?_ ?_
    · show (Plain.runStream _ s1).iota - (Plain.runStream _ s2).iota = _
      rw [i1, i2, i4, Finset.sum_congr rfl hiota4, Finset.sum_sub_distrib]
    · show (Plain.runStream _ s1).fi - (Plain.runStream _ s2).fi = _
      rw [f1, f2, f4]
      have : ∀ x ∈ Finset.range n, net s4 x = net s1 x - net s2 x := by
        intro x hx; exact hsub x (Finset.mem_range.mp hx)
      rw [Finset.sum_congr rfl this, Finset.sum_sub_distrib]
    · show pymod ((Plain.runStream _ s1).tau - (Plain.runStream _ s2).tau)
          (Plain.runStream _ s1).p = _
      rw [Plain.runStream_p, t1, t2, t4, ← pymod_eq_emod _ (by omega),
        ← pymod_eq_emod _ (by omega), ← pymod_eq_emod _ (by omega),
        pymod_sub_pymod hp, Finset.sum_congr rfl htau4, Finset.sum_sub_distrib]

/-- Witness for C1 at `n = 1`, `z = 1`, streams `[(0,2)]`, `[(0,3)]`,
`[(0,5)]` and `[(0,-1)]`. -/
theorem one_sparse_add_subtract_linear_witness :
    Plain.add (Plain.runStream (Plain.init 1 1) [(0, 2)])
        (Plain.runStream (Plain.init 1 1) [(0, 3)])
      = some (Plain.runStream (Plain.init 1 1) [(0, 5)])
  ∧ Plain.subtract (Plain.runStream (Plain.init 1 1) [(0, 2)])
        (Plain.runStream (Plain.init 1 1) [(0, 3)])
      = some (Plain.runStream (Plain.init 1 1) [(0, -1)]) :=
  one_sparse_add_subtract_linear 1 1 [(0, 2)] [(0, 3)] [(0, 5)] [(0, -1)]
    (by decide) (by decide) (by decide) (by decide)
    (by intro i hi; interval_cases i; decide)
    (by intro i hi; interval_cases i; decide)

/-- C2: after any finite update stream with indices in `[0, n-1]` and net
vector `a`, the counters of a freshly constructed 1-sparse recoverer (both
the plain and the `sparse_recovery` variant, each with its own stored
prime) are exactly `iota = Σ (i+1)·a[i]`, `fi = Σ a[i]` and
`tau = (Σ a[i]·z^(i+1)) mod p`, with no modular reduction of `iota` or
`fi`. -/
theorem counters_exact_invariant (n : ℕ) (z1 z2 : ℤ) (s : List (ℕ × ℤ))
    (h : ∀ u ∈ s, u.1 < n) :
    (Plain.runStream (Plain.init n z1) s).iota
        = ∑ i ∈ Finset.range n, ((i : ℤ) + 1) * net s i
  ∧ (Plain.runStream (Plain.init n z1) s).fi = ∑ i ∈ Finset.range n, net s i
  ∧ (Plain.runStream (Plain.init n z1) s).tau
        = (∑ i ∈ Finset.range n, net s i * z1 ^ (i + 1)) % Plain.osrP n
  ∧ (SRV.runStream (SRV.init n z2) s).iota
        = ∑ i ∈ Finset.range n, ((i : ℤ) + 1) * net s i
  ∧ (SRV.runStream (SRV.init n z2) s).fi = ∑ i ∈ Finset.range n, net s i
  ∧ (SRV.runStream (SRV.init n z2) s).tau
        = (∑ i ∈ Finset.range n, net s i * z2 ^ (i + 1)) % SRV.osrP n := by
  have hp1 : (0 : ℤ) < Plain.osrP n := by
    unfold Plain.osrP
    exact_mod_cast get_next_prime_pos (n * 100)
  have hp2 : (0 : ℤ) < SRV.osrP n := by
    unfold SRV.osrP
    exact_mod_cast get_next_prime_pos (n * n)
  obtain ⟨a1, a2, a3⟩ := countersFromZero n (Plain.osrP n) z1 hp1 n s h
  obtain ⟨b1, b2, b3⟩ := countersFromZeroSRV n (SRV.osrP n) z2 hp2 n s h
  exact ⟨a1, a2, a3, b1, b2, b3⟩

/-- Witness for C2 at `n = 1`, `z = 1`, stream `[(0, 2)]`. -/
theorem counters_exact_invariant_witness :
    (∀ u ∈ [((0 : ℕ), (2 : ℤ))], u.1 < 1)
  ∧ ((Plain.runStream (Plain.init 1 1) [(0, 2)]).iota
        = ∑ i ∈ Finset.range 1, ((i : ℤ) + 1) * net [(0, 2)] i
    ∧ (Plain.runStream (Plain.init 1 1) [(0, 2)]).fi
        = ∑ i ∈ Finset.range 1, net [(0, 2)] i
    ∧ (Plain.runStream (Plain.init 1 1) [(0, 2)]).tau
        = (∑ i ∈ Finset.range 1, net [(0, 2)] i * 1 ^ (i + 1)) % Plain.osrP 1
    ∧ (SRV.runStream (SRV.init 1 1) [(0, 2)]).iota
        = ∑ i ∈ Finset.range 1, ((i : ℤ) + 1) * net [(0, 2)] i
    ∧ (SRV.runStream (SRV.init 1 1) [(0, 2)]).fi
        = ∑ i ∈ Finset.range 1, net [(0, 2)] i
    ∧ (SRV.runStream (SRV.init 1 1) [(0, 2)]).tau
        = (∑ i ∈ Finset.range 1, net [(0, 2)] i * 1 ^ (i + 1)) % SRV.osrP 1) :=
  ⟨by decide, counters_exact_invariant 1 1 1 [(0, 2)] (by decide)⟩

/-- C3: for every `n ≥ 1`, in-range index `i`, non-zero value `v` and any
admissible witness draw `z ∈ [1, p-1]`, a freshly constructed 1-sparse
recoverer whose update stream has the singleton net vector `a[i] = v`
recovers exactly `(i, v)`, not Fail — in both variants (the plain one
returns the pair, the `sparse_recovery` one returns the tuple rather than
`False`/`True`). -/
theorem singleton_recover_exact (n i : ℕ) (v z1 z2 : ℤ) (s : List (ℕ × ℤ))
    (hn : 1 ≤ n) (hi : i < n) (hv : v ≠ 0)
    (hz1 : z1 ∈ Plain.zDraws (Plain.osrP n)) (hz2 : z2 ∈ SRV.zDraws (SRV.osrP n))
    (hb : ∀ u ∈ s, u.1 < n)
    (hnet : ∀ j, j < n → net s j = if j = i then v else 0) :
    Plain.recover (Plain.runStream (Plain.init n z1) s) = some ((i : ℤ), v)
  ∧ SRV.recover (SRV.runStream (SRV.init n z2) s) = SRV.RecoverResult.pair (i : ℤ) v := by
  have hp1 : (0 : ℤ) < Plain.osrP n := by
    unfold Plain.osrP
    exact_mod_cast get_next_prime_pos (n * 100)
  have hp2 : (0 : ℤ) < SRV.osrP n := by
    unfold SRV.osrP
    exact_mod_cast get_next_prime_pos (n * n)
  obtain ⟨a1, a2, a3⟩ := countersFromZero n (Plain.osrP n) z1 hp1 n s hb
  obtain ⟨b1, b2, b3⟩ := countersFromZeroSRV n (SRV.osrP n) z2 hp2 n s hb
  have hio1 : (Plain.runStream (Plain.init n z1) s).iota = ((i : ℤ) + 1) * v := by
    rw [show Plain.init n z1 = ⟨n, Plain.osrP n, z1, 0, 0, 0⟩ from rfl, a1]
    exact sum_singleton_weight n i hi (fun j => (j : ℤ) + 1) v (net s) hnet
  have hfi1 : (Plain.runStream (Plain.init n z1) s).fi = v := by
    rw [show Plain.init n z1 = ⟨n, Plain.osrP n, z1, 0, 0, 0⟩ from rfl, a2]
    have := sum_singleton_weight n i hi (fun _ => 1) v (net s) hnet
    simp only [one_mul] at this
    exact this
  have htau1 : (Plain.runStream (Plain.init n z1) s).tau
      = v * z1 ^ (i + 1) % Plain.osrP n := by
    rw [show Plain.init n z1 = ⟨n, Plain.osrP n, z1, 0, 0, 0⟩ from rfl, a3]
    congr 1
    have : ∀ j, j < n → net s j * 1 = if j = i then v else 0 := by
      intro j hj; rw [mul_one]; exact hnet j hj
    calc ∑ j ∈ Finset.range n, net s j * z1 ^ (j + 1)
        = ∑ j ∈ Finset.range n, z1 ^ (j + 1) * net s j :=
          Finset.sum_congr rfl (fun j _ => mul_comm _ _)
      _ = z1 ^ (i + 1) * v := sum_singleton_weight n i hi (fun j => z1 ^ (j + 1)) v (net s) hnet
      _ = v * z1 ^ (i + 1) := mul_comm _ _
  have hio2 : (SRV.runStream (SRV.init n z2) s).iota = ((i : ℤ) + 1) * v := by
    rw [show SRV.init n z2 = ⟨n, SRV.osrP n, z2, 0, 0, 0⟩ from rfl, b1]
    exact sum_singleton_weight n i hi (fun j => (j : ℤ) + 1) v (net s) hnet
  have hfi2 : (SRV.runStream (SRV.init n z2) s).fi = v := by
    rw [show SRV.init n z2 = ⟨n, SRV.osrP n, z2, 0, 0, 0⟩ from rfl, b2]
    have := sum_singleton_weight n i hi (fun _ => 1) v (net s) hnet
    simp only [one_mul] at this
    exact this
  have htau2 : (SRV.runStream (SRV.init n z2) s).tau
      = v * z2 ^ (i + 1) % SRV.osrP n := by
    rw [show SRV.init n z2 = ⟨n, SRV.osrP n, z2, 0, 0, 0⟩ from rfl, b3]
    congr 1
    calc ∑ j ∈ Finset.range n, net s j * z2 ^ (j + 1)
        = ∑ j ∈ Finset.range n, z2 ^ (j + 1) * net s j :=
          Finset.sum_congr rfl (fun j _ => mul_comm _ _)
      _ = z2 ^ (i + 1) * v := sum_singleton_weight n i hi (fun j => z2 ^ (j + 1)) v (net s) hnet
      _ = v * z2 ^ (i + 1) := mul_comm _ _
  constructor
  · exact plainRecoverSuccess _ i v z1 (Plain.osrP n) hp1 hv
      (by rw [Plain.runStream_p]; rfl) (by rw [Plain.runStream_z]; rfl) hio1 hfi1 htau1
  · refine srvRecoverSuccess _ i v z2 (SRV.osrP n) hp2 hv ?_ ?_ hio2 hfi2 htau2
    · have := SRV.toPlain_runStream (SRV.init n z2) s
      have hsp : (SRV.runStream (SRV.init n z2) s).p
          = (Plain.runStream (SRV.toPlain (SRV.init n z2)) s).p := by rw [← this]; rfl
      rw [hsp, Plain.runStream_p]; rfl
    · have := SRV.toPlain_runStream (SRV.init n z2) s
      have hsz : (SRV.runStream (SRV.init n z2) s).z
          = (Plain.runStream (SRV.toPlain (SRV.init n z2)) s).z := by rw [← this]; rfl
      rw [hsz, Plain.runStream_z]; rfl

/-- Witness for C3 at `n = 1`, `i = 0`, `v = 1`, `z = 1`, stream
`[(0, 1)]`; the E1-style cancellation stream is covered by the theorem's
net-vector hypothesis. -/
theorem singleton_recover_exact_witness :
    ((1 : ℤ) ∈ Plain.zDraws (Plain.osrP 1) ∧ (1 : ℤ) ∈ SRV.zDraws (SRV.osrP 1))
  ∧ (Plain.recover (Plain.runStream (Plain.init 1 1) [(0, 1)]) = some ((0 : ℤ), 1)
    ∧ SRV.recover (SRV.runStream (SRV.init 1 1) [(0, 1)])
        = SRV.RecoverResult.pair (0 : ℤ) 1) := by
  have hz1 : (1 : ℤ) ∈ Plain.zDraws (Plain.osrP 1) := by
    unfold Plain.zDraws Plain.osrP
    rw [show (1 : ℕ) * 100 = 100 from rfl, gnp_100]
    decide
  have hz2 : (1 : ℤ) ∈ SRV.zDraws (SRV.osrP 1) := by
    unfold SRV.zDraws SRV.osrP
    rw [show (1 : ℕ) * 1 = 1 from rfl, gnp_1]
    decide
  refine ⟨⟨hz1, hz2⟩, ?_⟩
  exact singleton_recover_exact 1 0 1 1 1 [(0, 1)] (by decide) (by decide) (by decide)
    hz1 hz2 (by decide) (by intro j hj; interval_cases j; decide)

/-- C7 counterexample: the `sparse_recovery` 1-sparse recoverer at `n = 4`
stores `p = next_prime(4·4) = 17`, which is neither `next_prime(100·4) = 401`
nor `≥ 100·4`. -/
theorem one_sparse_prime_mismatch :
    SRV.osrP 4 = 17 ∧ Plain.osrP 4 = 401
  ∧ SRV.osrP 4 ≠ (get_next_prime (100 * 4) : ℤ)
  ∧ ¬((100 : ℤ) * 4 ≤ SRV.osrP 4) := by
  have h1 : SRV.osrP 4 = 17 := by
    unfold SRV.osrP
    rw [show (4 : ℕ) * 4 = 16 from rfl, gnp_16]
    rfl
  have h2 : Plain.osrP 4 = 401 := by
    unfold Plain.osrP
    rw [show (4 : ℕ) * 100 = 400 from rfl, gnp_400]
    rfl
  refine ⟨h1, h2, ?_, ?_⟩
  · rw [h1, show (100 : ℕ) * 4 = 400 from rfl, gnp_400]
    decide
  · rw [h1]
    decide

/-- C7 amended: the plain 1-sparse recoverer stores
`p = next_prime(100·n) > 100·n` and draws `z` from `[1, p-1]`; the
`sparse_recovery` variant instead stores `p = next_prime(n·n) > n·n` (so
`p ≥ 100·n` fails there for small `n`, e.g. `n = 4`), and also draws `z`
from `[1, p-1]`. -/
theorem one_sparse_prime_amended (n : ℕ) (hn : 1 ≤ n) :
    Plain.osrP n = (get_next_prime (100 * n) : ℤ)
  ∧ ((100 * n : ℕ) : ℤ) < Plain.osrP n
  ∧ Nat.Prime (get_next_prime (n * 100))
  ∧ SRV.osrP n = (get_next_prime (n * n) : ℤ)
  ∧ ((n * n : ℕ) : ℤ) < SRV.osrP n
  ∧ (∀ z : ℤ, z ∈ Plain.zDraws (Plain.osrP n) ↔ 1 ≤ z ∧ z ≤ Plain.osrP n - 1)
  ∧ (∀ z : ℤ, z ∈ SRV.zDraws (SRV.osrP n) ↔ 1 ≤ z ∧ z ≤ SRV.osrP n - 1) := by
  refine ⟨by unfold Plain.osrP; rw [Nat.mul_comm], ?_, get_next_prime_prime _,
    rfl, ?_, ?_, ?_⟩
  · unfold Plain.osrP
    rw [Nat.mul_comm 100 n]
    exact_mod_cast get_next_prime_gt (n * 100)
  · unfold SRV.osrP
    exact_mod_cast get_next_prime_gt (n * n)
  · intro z
    unfold Plain.zDraws
    rw [Finset.mem_Icc]
  · intro z
    unfold SRV.zDraws
    rw [Finset.mem_Icc]

/-- Witness for the amended C7 at `n = 4`. -/
theorem one_sparse_prime_amended_witness :
    1 ≤ 4
  ∧ (Plain.osrP 4 = (get_next_prime (100 * 4) : ℤ)
    ∧ ((100 * 4 : ℕ) : ℤ) < Plain.osrP 4
    ∧ Nat.Prime (get_next_prime (4 * 100))
    ∧ SRV.osrP 4 = (get_next_prime (4 * 4) : ℤ)
    ∧ ((4 * 4 : ℕ) : ℤ) < SRV.osrP 4
    ∧ (∀ z : ℤ, z ∈ Plain.zDraws (Plain.osrP 4) ↔ 1 ≤ z ∧ z ≤ Plain.osrP 4 - 1)
    ∧ (∀ z : ℤ, z ∈ SRV.zDraws (SRV.osrP 4) ↔ 1 ≤ z ∧ z ≤ SRV.osrP 4 - 1)) :=
  ⟨by decide, one_sparse_prime_amended 4 (by decide)⟩

/-- C9: the hash factory draws its coefficients with Python's inclusive
`randint(0, p)` and `randint(1, p)`, so the drawn leading coefficient can
be `p` itself, which is `0 mod p`: with `(n, w, k) = (2, 2, 1)` we get
`p = next_prime(max(2,2)) = 3`, the draw `a[0] = 3` is admissible, and the
resulting hash collapses to the zero polynomial — contradicting both the
claim and the function's own docstring (`a` from `Z_p` with `a[0] != 0`). -/
theorem hash_leading_draw_degenerate :
    hashP 2 2 = 3
  ∧ (3 : ℤ) ∈ leadDraws ((hashP 2 2 : ℕ) : ℤ)
  ∧ pymod 3 3 = 0
  ∧ hashFun [3] 3 2 0 = 0 ∧ hashFun [3] 3 2 1 = 0 := by
  have h1 : hashP 2 2 = 3 := by
    unfold hashP
    rw [show max 2 2 = 2 from rfl, gnp_2]
  refine ⟨h1, ?_, by decide, by decide, by decide⟩
  rw [h1]
  decide

/-! ### Generic list machinery for grids and Python dicts -/

/-- In-place modification of the element at one index (a Python
`lst[j] = f(lst[j])` on a list of mutable cells). -/
def setAt {α : Type} : List α → ℕ → (α → α) → List α
  | [], _, _ => []
  | x :: xs, 0, f => f x :: xs
  | x :: xs, j + 1, f => x :: setAt xs j f

theorem setAt_congr_id {α : Type} (f : α → α) (l : List α) (j : ℕ)
    (h : ∀ a ∈ l, f a = a) : setAt l j f = l := by
  induction l generalizing j with
  | nil => rfl
  | cons x xs ih =>
    cases j with
    | zero => simp [setAt, h x (List.mem_cons_self _ _)]
    | succ j =>
      simp only [setAt]
      rw [ih j (fun a ha => h a (List.mem_cons_of_mem _ ha))]

theorem setAt_preserve {α : Type} (P : α → Prop) (f : α → α) (l : List α) (j : ℕ)
    (hf : ∀ a ∈ l, P a → P (f a)) (hl : ∀ a ∈ l, P a) :
    ∀ b ∈ setAt l j f, P b := by
  induction l generalizing j with
  | nil => intro b hb; cases hb
  | cons x xs ih =>
    cases j with
    | zero =>
      intro b hb
      rcases List.mem_cons.mp hb with h1 | h2
      · subst h1; exact hf x (List.mem_cons_self _ _) (hl x (List.mem_cons_self _ _))
      · exact hl b (List.mem_cons_of_mem _ h2)
    | succ j =>
      intro b hb
      rcases List.mem_cons.mp hb with h1 | h2
      · subst h1; exact hl b (List.mem_cons_self _ _)
      · exact ih j (fun a ha hp => hf a (List.mem_cons_of_mem _ ha) hp)
          (fun a ha => hl a (List.mem_cons_of_mem _ ha)) b h2

/-- Python dict assignment `d[k] = v` on an insertion-ordered association
list: overwrite in place if the key exists, otherwise append. -/
def upsert : List (ℤ × ℤ) → ℤ → ℤ → List (ℤ × ℤ)
  | [], k, v => [(k, v)]
  | (k', v') :: rest, k, v =>
      if k' = k then (k, v) :: rest else (k', v') :: upsert rest k v

/-- Python dict read `d[k]` (defaulting to 0; keys are always present at
the call sites). -/
def lookupZ : List (ℤ × ℤ) → ℤ → ℤ
  | [], _ => 0
  | (k, v) :: rest, key => if k = key then v else lookupZ rest key

theorem upsert_preserve (P : ℤ × ℤ → Prop) (acc : List (ℤ × ℤ)) (k v : ℤ)
    (hacc : ∀ u ∈ acc, P u) (hkv : P (k, v)) :
    ∀ u ∈ upsert acc k v, P u := by
  induction acc with
  | nil => intro u hu; simp [upsert] at hu; subst hu; exact hkv
  | cons x rest ih =>
    obtain ⟨k', v'⟩ := x
    intro u hu
    simp only [upsert] at hu
    by_cases hk : k' = k
    · rw [if_pos hk] at hu
      rcases List.mem_cons.mp hu with h1 | h2
      · subst h1; exact hkv
      · exact hacc u (List.mem_cons_of_mem _ h2)
    · rw [if_neg hk] at hu
      rcases List.mem_cons.mp hu with h1 | h2
      · subst h1; exact hacc _ (List.mem_cons_self _ _)
      · exact ih (fun w hw => hacc w (List.mem_cons_of_mem _ hw)) u h2

theorem lookupZ_mem (l : List (ℤ × ℤ)) (key : ℤ) (h : key ∈ l.map Prod.fst) :
    (key, lookupZ l key) ∈ l := by
  induction l with
  | nil => cases h
  | cons x rest ih =>
    obtain ⟨k, v⟩ := x
    simp only [lookupZ]
    by_cases hk : k = key
    · subst hk; simp
    · rw [if_neg hk]
      rcases List.mem_map.mp h with ⟨u, hu, hfst⟩
      rcases List.mem_cons.mp hu with h1 | h2
      · exfalso; apply hk; rw [h1] at hfst; exact hfst
      · exact List.mem_cons_of_mem _ (ih (List.mem_map.mpr ⟨u, h2, hfst⟩))

/-! ### Shared 1-sparse cell for inlined grids (`plain_v2`, `fast`) -/

structure Cell where
  z : ℤ
  iota : ℤ
  fi : ℤ
  tau : ℤ
deriving DecidableEq

/-- The inlined cell update, as in `plain_v2/SparseRecoverer.update` and
`fast/L0Sampler.update`: `recoverer[1] += (i+1)*Delta`,
`recoverer[2] += Delta`,
`recoverer[3] = (recoverer[3] + Delta * pow(recoverer[0], i+1, p)) % p`. -/
def cellUpdate (p : ℤ) (i : ℕ) (Delta : ℤ) (c : Cell) : Cell :=
  { c with
    iota := c.iota + ((i : ℤ) + 1) * Delta
    fi := c.fi + Delta
    tau := pymod (c.tau + Delta * pypow c.z (i + 1) p) p }

/-- The inlined 1-sparse success test of `plain_v2/SparseRecoverer.recover`. -/
def cellRecover (p : ℤ) (c : Cell) : Option (ℤ × ℤ) :=
  if c.fi ≠ 0 ∧ pymod c.iota c.fi = 0 ∧ 0 < pydiv c.iota c.fi ∧
      c.tau = pymod (c.fi * pypow c.z (pydiv c.iota c.fi).toNat p) p
  then some (pydiv c.iota c.fi - 1, c.fi)
  else none

/-! ### Derived grid dimensions — shared by both `SparseRecoverer.__init__`s

Both constructors set `columns = 2*s` and `rows = int(log(s / delta))`
(Python truncating conversion of a float natural logarithm; no
`max(1, ...)` appears in either source).  `int()` truncates toward zero,
which we embed with `pytrunc`. -/

noncomputable def pytrunc (x : ℝ) : ℤ := if 0 ≤ x then ⌊x⌋ else ⌈x⌉

def sparseColumns (s : ℕ) : ℕ := 2 * s

noncomputable def sparseRowsZ (s : ℕ) (delta : ℝ) : ℤ := pytrunc (Real.log (s / delta))

namespace PlainV2

/-! ### s-sparse recoverer — `src/plain_v2/SparseRecoverer.py`

The grid `R` stores raw counter cells `[z, iota, fi, tau]`; the stored
prime is `prime_getter.get_next_prime(n*100)`.  The per-row hash
functions are an explicit parameter `hash : row → index → column`. -/

structure SparseRecoverer where
  n : ℕ
  sparse_degree : ℕ
  columns : ℕ
  hash : ℕ → ℕ → ℕ
  p : ℤ
  R : List (List Cell)

/-- Row-by-row update: row `l` updates the cell in column `hash l i`. -/
def updateRows (p : ℤ) (hash : ℕ → ℕ → ℕ) (i : ℕ) (Delta : ℤ) :
    ℕ → List (List Cell) → List (List Cell)
  | _, [] => []
  | l, row :: rest =>
      setAt row (hash l i) (cellUpdate p i Delta) :: updateRows p hash i Delta (l + 1) rest

def update (st : SparseRecoverer) (i : ℕ) (Delta : ℤ) : SparseRecoverer :=
  { st with R := updateRows st.p st.hash i Delta 0 st.R }

def recoverRow (p : ℤ) : List Cell → List (ℤ × ℤ) → List (ℤ × ℤ)
  | [], acc => acc
  | c :: cs, acc =>
      recoverRow p cs (match cellRecover p c with
        | some kv => upsert acc kv.1 kv.2
        | none => acc)

def recoverRows (p : ℤ) : List (List Cell) → List (ℤ × ℤ) → List (ℤ × ℤ)
  | [], acc => acc
  | row :: rest, acc => recoverRows p rest (recoverRow p row acc)

/-- Recovery `recover()`: merge all cell successes into one insertion-ordered dict;
return it if non-empty, otherwise `None`.  No `|result| > s` filter. -/
def recover (st : SparseRecoverer) : Option (List (ℤ × ℤ)) :=
  let result := recoverRows st.p st.R []
  if result = [] then none else some result

/-- Freshly constructed grid: `rows × columns` zeroed cells with drawn
per-cell witnesses. -/
def initGrid (zOf : ℕ → ℕ → ℤ) (rows columns : ℕ) : List (List Cell) :=
  (List.range rows).map (fun r => (List.range columns).map (fun c => ⟨zOf r c, 0, 0, 0⟩))

/-- Constructed state; the grid dimensions are taken as parameters (the
source computes `rows` from a float logarithm, `sparseRowsZ`, and
`columns = 2*s`; any dimensions subsume those values). -/
def mkFresh (n s rows columns : ℕ) (hash : ℕ → ℕ → ℕ) (zOf : ℕ → ℕ → ℤ) :
    SparseRecoverer :=
  ⟨n, s, columns, hash, (get_next_prime (n * 100) : ℤ), initGrid zOf rows columns⟩

def runStream (st : SparseRecoverer) (s : List (ℕ × ℤ)) : SparseRecoverer :=
  s.foldl (fun acc u => update acc u.1 u.2) st

/-- States reachable from some construction by an update stream (grid
dimensions universally quantified, a superset of the float-computed
ones). -/
def Reachable (st : SparseRecoverer) : Prop :=
  ∃ n s rows columns hash zOf stream,
    st = runStream (mkFresh n s rows columns hash zOf) stream

end PlainV2

namespace SRV

/-! ### s-sparse recoverer — `src/sparse_recovery/SparseRecoverer.py`

The grid holds full `OneSparseRecoverer` objects (each with its own
stored `n`, `p = next_prime(n*n)` and `z`); `update` delegates to the
cell's `update`, and `recover` calls each cell's tri-valued `recover`,
then — believing it only ever gets `None` or a tuple — subscripts the
result.  Subscripting the booleans `False`/`True` raises `TypeError`. -/

structure SparseRecoverer where
  n : ℕ
  sparse_degree : ℕ
  columns : ℕ
  hash : ℕ → ℕ → ℕ
  R : List (List OneSparseRecoverer)

def updateRowsS (hash : ℕ → ℕ → ℕ) (i : ℕ) (Delta : ℤ) :
    ℕ → List (List OneSparseRecoverer) → List (List OneSparseRecoverer)
  | _, [] => []
  | l, row :: rest =>
      setAt row (hash l i) (fun c => update c i Delta) :: updateRowsS hash i Delta (l + 1) rest

def srUpdate (st : SparseRecoverer) (i : ℕ) (Delta : ℤ) : SparseRecoverer :=
  { st with R := updateRowsS st.hash i Delta 0 st.R }

/-- Outcome of this variant's `recover()`: a raised `TypeError`, the
`None` failure marker, or the non-empty merged dict. -/
inductive SRRecoverOutcome where
  | typeError : SRRecoverOutcome
  | fail : SRRecoverOutcome
  | recovered : List (ℤ × ℤ) → SRRecoverOutcome
deriving DecidableEq

/-- Per-row pass; `none` signals the `TypeError` raised on subscripting a
boolean cell result (`one_sparse_recovery_result[0]` with a `bool`). -/
def srRecoverRow : List OneSparseRecoverer → List (ℤ × ℤ) → Option (List (ℤ × ℤ))
  | [], acc => some acc
  | c :: cs, acc =>
      match recover c with
      | .pair k v => srRecoverRow cs (upsert acc k v)
      | _ => none

def srRecoverRows : List (List OneSparseRecoverer) → List (ℤ × ℤ) → Option (List (ℤ × ℤ))
  | [], acc => some acc
  | row :: rest, acc =>
      match srRecoverRow row acc with
      | none => none
      | some acc2 => srRecoverRows rest acc2

def srRecover (st : SparseRecoverer) : SRRecoverOutcome :=
  match srRecoverRows st.R [] with
  | none => .typeError
  | some acc => if acc = [] then .fail else .recovered acc

/-- Freshly constructed grid of `OneSparseRecoverer(n)` cells. -/
def initGridS (n : ℕ) (zOf : ℕ → ℕ → ℤ) (rows columns : ℕ) :
    List (List OneSparseRecoverer) :=
  (List.range rows).map (fun r =>
    (List.range columns).map (fun c => ⟨n, osrP n, zOf r c, 0, 0, 0⟩))

def mkFresh (n s rows columns : ℕ) (hash : ℕ → ℕ → ℕ) (zOf : ℕ → ℕ → ℤ) :
    SparseRecoverer :=
  ⟨n, s, columns, hash, initGridS n zOf rows columns⟩

end SRV

namespace L0

/-! ### L0-sampler — `src/L0Sampler.py`

`update(i, Delta)` validates `0 <= i <= n-1` (raising `ValueError`
otherwise, embedded as `none`) and then, for each level `l`, applies the
update to that level's s-sparse recoverer iff
`(n ** n_hash_power) >> l > hash_function(i)` with `n_hash_power = 1`.
The tag hash is an explicit parameter `tag`; the recoverers list has
`levels = ceil(log2 n)` entries at construction and `update` walks it
with its index. -/

structure L0Sampler where
  n : ℕ
  tag : ℕ → ℕ
  recoverers : List SRV.SparseRecoverer

def levelMap (n : ℕ) (tag : ℕ → ℕ) (i : ℕ) (Delta : ℤ) :
    ℕ → List SRV.SparseRecoverer → List SRV.SparseRecoverer
  | _, [] => []
  | l, r :: rest =>
      (if tag i < n >>> l then SRV.srUpdate r i Delta else r)
        :: levelMap n tag i Delta (l + 1) rest

def updateCore (st : L0Sampler) (i : ℕ) (Delta : ℤ) : L0Sampler :=
  { st with recoverers := levelMap st.n st.tag i Delta 0 st.recoverers }

/-- Update with the `check_in_range(0, n - 1, i)` validation; `none`
models the raised `ValueError`. -/
def update (st : L0Sampler) (i : ℕ) (Delta : ℤ) : Option L0Sampler :=
  if i < st.n then some (updateCore st i Delta) else none

def runStream (st : L0Sampler) (s : List (ℕ × ℤ)) : L0Sampler :=
  s.foldl (fun acc u => updateCore acc u.1 u.2) st

/-- States reachable from a construction (every level starts as a fresh
s-sparse grid) by an in-range update stream. -/
def Reachable (st : L0Sampler) : Prop :=
  ∃ (n : ℕ) (tag : ℕ → ℕ) (recs : List SRV.SparseRecoverer) (stream : List (ℕ × ℤ)),
    (∀ g ∈ recs, ∃ s rows columns hash zOf, g = SRV.mkFresh n s rows columns hash zOf)
    ∧ (∀ u ∈ stream, u.1 < n)
    ∧ st = runStream ⟨n, tag, recs⟩ stream

end L0

/-- Fuel-based ceiling of `log2` (embeds `int(ceil(log2(n)))` for `n ≥ 1`,
via `ceil(log2 m) = ceil(log2(ceil(m/2))) + 1`). -/
def ceilLog2Aux : ℕ → ℕ → ℕ
  | 0, _ => 0
  | fuel + 1, m => if m ≤ 1 then 0 else ceilLog2Aux fuel ((m + 1) / 2) + 1

def ceilLog2 (n : ℕ) : ℕ := ceilLog2Aux n n

namespace Fast

/-! ### Fast L0-sampler — `src/fast/L0Sampler.py`

Fixed parameters: `k = 4`, `sparse_degree = 2*k = 8`,
`recoverers_rows = 4`, `recoverers_columns = 2*sparse_degree = 16`,
`levels = ceil(log2 n)`, `prime_after_n = get_next_prime(n)`,
`one_sp_rec_p = get_next_prime(n*100)`, `n_hash_power = 1`.

The per-(level,row) column-hash parameters and the per-cell witnesses
`z` are drawn from a PRG reseeded deterministically from `init_seed`;
they are therefore pure functions of their arguments and we model them
as explicit function parameters (`colA`, `colB`, `zOf`), together with
the drawn tag-hash coefficients.  The lazily filled
`recoverers_values` dict is an insertion-ordered association list keyed
by `(level, row, column)`. -/

structure Params where
  n : ℕ
  levels : ℕ
  rows : ℕ
  columns : ℕ
  prime_after_n : ℤ
  one_sp_rec_p : ℤ
  tagA : List ℤ
  tagP : ℤ
  colA : ℕ → ℕ → ℤ
  colB : ℕ → ℕ → ℤ
  zOf : ℕ → ℕ → ℕ → ℤ

/-- The constructor's derived fields (`delta` only feeds commented-out
code paths and is not stored in any field we use). -/
def mkParams (n : ℕ) (tagA : List ℤ) (colA colB : ℕ → ℕ → ℤ)
    (zOf : ℕ → ℕ → ℕ → ℤ) : Params :=
  { n := n
    levels := ceilLog2 n
    rows := 4
    columns := 2 * (2 * 4)
    prime_after_n := (get_next_prime n : ℤ)
    one_sp_rec_p := (get_next_prime (n * 100) : ℤ)
    tagA := tagA
    tagP := (get_next_prime (max n (n ^ 1)) : ℤ)
    colA := colA
    colB := colB
    zOf := zOf }

/-- The tag hash `self.hash_function(i)` (codomain `n ** n_hash_power`). -/
def tagHashN (P : Params) (x : ℕ) : ℕ := (hashFun P.tagA P.tagP ((P.n : ℤ) ^ 1) (x : ℤ)).toNat

/-- The `while n_copy >= hash_value and max_l < self.levels` loop; the
fuel `levels - max_l` bounds the iteration count. -/
def maxLAux (hv levels : ℕ) : ℕ → ℕ → ℕ → ℕ
  | 0, _, max_l => max_l
  | fuel + 1, n_copy, max_l =>
      if hv ≤ n_copy ∧ max_l < levels
      then maxLAux hv levels fuel (n_copy >>> 1) (max_l + 1)
      else max_l

def maxL (P : Params) (i : ℕ) : ℕ :=
  maxLAux (tagHashN P i) P.levels P.levels (P.n ^ 1 - 1) 0

/-- Column hash `get_column`: `((i * a + b) % prime_after_n) % recoverers_columns`. -/
def column (P : Params) (level row i : ℕ) : ℕ :=
  (pymod (pymod ((i : ℤ) * P.colA level row + P.colB level row) P.prime_after_n)
    (P.columns : ℤ)).toNat

def Cells : Type := List ((ℕ × ℕ × ℕ) × Cell)

instance : DecidableEq Cells := by unfold Cells; infer_instance

def findCell : List ((ℕ × ℕ × ℕ) × Cell) → ℕ × ℕ × ℕ → Option Cell
  | [], _ => none
  | (k, c) :: rest, key => if k = key then some c else findCell rest key

def setCell : List ((ℕ × ℕ × ℕ) × Cell) → ℕ × ℕ × ℕ → Cell → List ((ℕ × ℕ × ℕ) × Cell)
  | [], key, c => [(key, c)]
  | (k, c') :: rest, key, c =>
      if k = key then (k, c) :: rest else (k, c') :: setCell rest key c

/-- One `(level, row)` step of `update`: create the cell on first touch
(with its deterministic witness) and apply the counter update. -/
def cellTouch (P : Params) (level row i : ℕ) (Delta : ℤ) (cells : Cells) : Cells :=
  let c := column P level row i
  let key := (level, row, c)
  let c0 := (findCell cells key).getD ⟨P.zOf level row c, 0, 0, 0⟩
  setCell cells key (cellUpdate P.one_sp_rec_p i Delta c0)

/-- Update `(i, Delta)`: compute `max_l` once, then touch every
`(level, row)` with `level < max_l`. -/
def update (P : Params) (cells : Cells) (i : ℕ) (Delta : ℤ) : Cells :=
  (List.range (maxL P i)).foldl (fun acc level =>
    (List.range P.rows).foldl (fun acc2 row => cellTouch P level row i Delta acc2) acc)
    cells

def runStream (P : Params) (cells : Cells) (s : List (ℕ × ℤ)) : Cells :=
  s.foldl (fun acc u => update P acc u.1 u.2) cells

/-- The per-cell step of `get_samples`: skip absent cells; on a passing
1-sparse test insert `result[iota // fi - 1] = fi`. -/
def sampleStep (P : Params) (cells : Cells) (key : ℕ × ℕ × ℕ)
    (acc : List (ℤ × ℤ)) : List (ℤ × ℤ) :=
  match findCell cells key with
  | none => acc
  | some c =>
      if c.fi ≠ 0 ∧ pymod c.iota c.fi = 0 ∧ 0 < pydiv c.iota c.fi ∧
          c.tau = pymod (c.fi * pypow c.z (pydiv c.iota c.fi).toNat P.one_sp_rec_p)
            P.one_sp_rec_p
      then upsert acc (pydiv c.iota c.fi - 1) c.fi
      else acc

/-- Recovery `get_samples()`: iterate `(level, row, column)` in lexicographic loop
order, merging every passing cell into one dict. -/
def get_samples (P : Params) (cells : Cells) : List (ℤ × ℤ) :=
  (List.range P.levels).foldl (fun acc level =>
    (List.range P.rows).foldl (fun acc2 row =>
      (List.range P.columns).foldl (fun acc3 col =>
        sampleStep P cells (level, row, col) acc3) acc2) acc) []

/-- Sampling `get_sample()`: `random.choice` over the dict keys, embedded with an
explicit choice index `pick` reduced modulo the number of keys. -/
def get_sample (pick : ℕ) (P : Params) (cells : Cells) : Option (ℤ × ℤ) :=
  let samples := get_samples P cells
  if samples = [] then none
  else
    let keys := samples.map Prod.fst
    let key := keys.getD (pick % keys.length) 0
    some (key, lookupZ samples key)

end Fast

theorem log_lt_of_lt_exp {x y : ℝ} (hx : 0 < x) (h : x < Real.exp y) :
    Real.log x < y := by
  by_contra hc
  push_neg at hc
  have := (Real.le_log_iff_exp_le hx).mp hc
  linarith

theorem sparseRowsZ_2_1 : sparseRowsZ 2 1 = 0 := by
  unfold sparseRowsZ pytrunc
  have harg : ((2 : ℕ) : ℝ) / 1 = 2 := by norm_num
  rw [harg]
  have h0 : 0 ≤ Real.log 2 := Real.log_nonneg (by norm_num)
  have h1 : Real.log 2 < 1 := by
    apply log_lt_of_lt_exp (by norm_num)
    have := Real.exp_one_gt_d9
    linarith
  rw [if_pos h0, Int.floor_eq_zero_iff]
  exact ⟨h0, h1⟩

theorem sparseRowsZ_3_1 : sparseRowsZ 3 1 = 1 := by
  unfold sparseRowsZ pytrunc
  have harg : ((3 : ℕ) : ℝ) / 1 = 3 := by norm_num
  rw [harg]
  have hlo : (1 : ℝ) ≤ Real.log 3 := by
    rw [Real.le_log_iff_exp_le (by norm_num)]
    have := Real.exp_one_lt_d9
    linarith
  have hhi : Real.log 3 < 2 := by
    apply log_lt_of_lt_exp (by norm_num)
    have h2 : Real.exp 2 = Real.exp 1 * Real.exp 1 := by
      rw [← Real.exp_add]; norm_num
    have := Real.exp_one_gt_d9
    nlinarith
  rw [if_pos (by linarith), Int.floor_eq_iff]
  constructor
  · exact_mod_cast hlo
  · push_cast
    linarith

/-- C5 (code bug): `sparse_recovery/SparseRecoverer.recover` subscripts
the boolean returned by its 1-sparse cells, raising `TypeError` instead
of returning the mapping-or-Fail: already on the freshly constructed
recoverer with `n = 10`, `s = 3`, `delta = 1.0` (a reachable
configuration: `rows = int(log(3/1.0)) = 1`, `columns = 6`), the very
first cell has `fi = 0`, its `recover` returns `False`, `False is not
None` holds, and `False[0]` raises. -/
theorem sparse_recover_raises :
    sparseRowsZ 3 1 = 1
  ∧ SRV.srRecover (SRV.mkFresh 10 3 1 6 (fun _ _ => 0) (fun _ _ => 1))
      = SRV.SRRecoverOutcome.typeError := by
  refine ⟨sparseRowsZ_3_1, ?_⟩
  rfl

/-- C8 counterexample: with `s = 2`, `delta = 1.0` the constructor sets
`rows = int(log(2/1.0)) = 0` — no `max(1, ...)` is applied and the grid
does not have at least one row. -/
theorem sparse_rows_zero :
    sparseRowsZ 2 1 = 0 ∧ ¬(1 ≤ sparseRowsZ 2 1) ∧ sparseColumns 2 = 2 * 2 := by
  refine ⟨sparseRowsZ_2_1, ?_, rfl⟩
  rw [sparseRowsZ_2_1]
  decide

/-- C8 amended: construction sets `columns = 2*s` and
`rows = int(ln(s/delta))` with no `max(1, ...)`: whenever
`1 ≤ s/delta < e` the row count is zero, and a zero-row grid records no
updates (`update` is the identity) and always recovers Fail. -/
theorem sparse_dims_amended (s : ℕ) (delta : ℝ) (hs : 1 ≤ s) (hd : 0 < delta)
    (hlow : delta ≤ (s : ℝ)) (hhi : (s : ℝ) < Real.exp 1 * delta) :
    sparseColumns s = 2 * s
  ∧ sparseRowsZ s delta = 0
  ∧ (∀ st : PlainV2.SparseRecoverer, st.R = [] →
      (∀ i Delta, PlainV2.update st i Delta = st) ∧ PlainV2.recover st = none) := by
  refine ⟨rfl, ?_, ?_⟩
  · unfold sparseRowsZ pytrunc
    have hone : (1 : ℝ) ≤ (s : ℝ) / delta := (one_le_div hd).mpr hlow
    have h0 : 0 ≤ Real.log ((s : ℝ) / delta) := Real.log_nonneg hone
    have h1 : Real.log ((s : ℝ) / delta) < 1 := by
      apply log_lt_of_lt_exp (by linarith)
      rw [div_lt_iff hd]
      exact hhi
    rw [if_pos h0, Int.floor_eq_zero_iff]
    exact ⟨h0, h1⟩
  · intro st hR
    constructor
    · intro i Delta
      unfold PlainV2.update
      rw [hR]
      show { st with R := ([] : List (List Cell)) } = st
      rw [← hR]
    · unfold PlainV2.recover
      rw [hR]
      rfl

/-- Witness for the amended C8 at `s = 2`, `delta = 1.0`. -/
theorem sparse_dims_amended_witness :
    (1 ≤ 2 ∧ (0 : ℝ) < 1 ∧ (1 : ℝ) ≤ ((2 : ℕ) : ℝ) ∧ ((2 : ℕ) : ℝ) < Real.exp 1 * 1)
  ∧ (sparseColumns 2 = 2 * 2
    ∧ sparseRowsZ 2 1 = 0
    ∧ (∀ st : PlainV2.SparseRecoverer, st.R = [] →
        (∀ i Delta, PlainV2.update st i Delta = st) ∧ PlainV2.recover st = none)) := by
  have h1 : (1 : ℝ) ≤ ((2 : ℕ) : ℝ) := by norm_num
  have h2 : ((2 : ℕ) : ℝ) < Real.exp 1 * 1 := by
    have := Real.exp_one_gt_d9
    push_cast
    linarith
  exact ⟨⟨by norm_num, by norm_num, h1, h2⟩,
    sparse_dims_amended 2 1 (by norm_num) (by norm_num) h1 h2⟩

theorem levelMap_getD (n : ℕ) (tag : ℕ → ℕ) (i : ℕ) (Delta : ℤ)
    (d : SRV.SparseRecoverer) :
    ∀ (recs : List SRV.SparseRecoverer) (l0 j : ℕ), j < recs.length →
      (L0.levelMap n tag i Delta l0 recs).getD j d
        = if tag i < n >>> (l0 + j) then SRV.srUpdate (recs.getD j d) i Delta
          else recs.getD j d := by
  intro recs
  induction recs with
  | nil => intro l0 j h; simp at h
  | cons r rest ih =>
    intro l0 j hj
    cases j with
    | zero =>
      simp only [L0.levelMap, List.getD_cons_zero, Nat.add_zero]
    | succ j =>
      simp only [L0.levelMap, List.getD_cons_succ]
      have hrw : l0 + 1 + j = l0 + (j + 1) := by omega
      rw [ih (l0 + 1) j (by simpa using hj), hrw]

/-- A dummy s-sparse recoverer used as the `getD` default. -/
def srDummy : SRV.SparseRecoverer := SRV.mkFresh 1 1 0 0 (fun _ _ => 0) (fun _ _ => 1)

/-- C6 amended: in `src/L0Sampler.py`, level `l` receives the update
exactly when `l < levels` and `(n ** 1) >> l > H(i)`, and this set of
levels is downward closed, i.e. the prefix `{0..maxLevel(i)}` (the
`src/fast` variant uses the different predicate
`(n - 1) >> l >= H(i)`, see the counterexample). -/
theorem level_filter_plain (n : ℕ) (tag : ℕ → ℕ) (i : ℕ) (Delta : ℤ)
    (d : SRV.SparseRecoverer) (recs : List SRV.SparseRecoverer) (l : ℕ)
    (hl : l < recs.length) :
    ((L0.updateCore ⟨n, tag, recs⟩ i Delta).recoverers.getD l d
        = if tag i < n >>> l then SRV.srUpdate (recs.getD l d) i Delta
          else recs.getD l d)
  ∧ (∀ l1 l2 : ℕ, l2 ≤ l1 → tag i < n >>> l1 → tag i < n >>> l2) := by
  constructor
  · have := levelMap_getD n tag i Delta d recs 0 l hl
    simpa using this
  · intro l1 l2 hle h
    have hmono : n >>> l1 ≤ n >>> l2 := by
      rw [Nat.shiftRight_eq_div_pow, Nat.shiftRight_eq_div_pow]
      exact Nat.div_le_div_left (Nat.pow_le_pow_right (by norm_num) hle)
        (Nat.pos_pow_of_pos l2 (by norm_num))
    omega

/-- Witness for the amended C6 on a one-level sampler with `n = 2` and a
constant-zero tag hash. -/
theorem level_filter_plain_witness :
    0 < [srDummy].length
  ∧ (((L0.updateCore ⟨2, fun _ => 0, [srDummy]⟩ 0 1).recoverers.getD 0 srDummy
        = if (fun _ : ℕ => 0) 0 < 2 >>> 0
          then SRV.srUpdate ([srDummy].getD 0 srDummy) 0 1
          else [srDummy].getD 0 srDummy)
    ∧ (∀ l1 l2 : ℕ, l2 ≤ l1 → (fun _ : ℕ => 0) 0 < 2 >>> l1
        → (fun _ : ℕ => 0) 0 < 2 >>> l2)) :=
  ⟨by decide, level_filter_plain 2 (fun _ => 0) 0 1 srDummy [srDummy] 0 (by decide)⟩

/-- The drawn tag-hash coefficients of the C6 counterexample: the hash
maps index 0 to the tag value 3 (`p = 11`, `w = 7`). -/
def c6TagA : List ℤ := [1, 0, 0, 3]

def c6P : Fast.Params := Fast.mkParams 7 c6TagA (fun _ _ => 1) (fun _ _ => 0) (fun _ _ _ => 1)

def c6PLit : Fast.Params :=
  { n := 7, levels := 3, rows := 4, columns := 16, prime_after_n := 11,
    one_sp_rec_p := 701, tagA := c6TagA, tagP := 11,
    colA := fun _ _ => 1, colB := fun _ _ => 0, zOf := fun _ _ _ => 1 }

theorem c6P_eq : c6P = c6PLit := by
  unfold c6P c6PLit Fast.mkParams
  rw [show max 7 (7 ^ 1) = 7 from rfl, show (7 : ℕ) * 100 = 700 from rfl,
    gnp_7, gnp_700]
  rfl

/-- C6 counterexample: in `src/fast/L0Sampler.py` with `n = 7` and a
drawn tag hash with `H(0) = 3`, the update loop (condition
`n_copy >= hash_value` on `n_copy = (n ** 1) - 1 >> level`) creates a
cell at level 1 although the claimed predicate `(n ** 1) >> 1 > H(0)` is
false (`7 >> 1 = 3`, not `> 3`): the set of updated levels is not the
claimed one. -/
theorem fast_level_filter_differs :
    Fast.tagHashN c6P 0 = 3
  ∧ ¬(7 >>> 1 > 3)
  ∧ Fast.findCell (Fast.update c6P [] 0 1) (1, 0, 0) ≠ none := by
  rw [c6P_eq]
  refine ⟨by decide, by decide, by decide⟩

/-- Drawn tag-hash coefficients of the C4 counterexample: with `p = 17`,
`w = 16` they give tags `H(0) = 8` and `H(2) = 9`, confining both
indices to level 0. -/
def c4TagA : List ℤ := [1, 0, 5, 8]

def c4P : Fast.Params := Fast.mkParams 16 c4TagA (fun _ _ => 8) (fun _ _ => 0) (fun _ _ _ => 1)

def c4PLit : Fast.Params :=
  { n := 16, levels := 4, rows := 4, columns := 16, prime_after_n := 17,
    one_sp_rec_p := 1601, tagA := c4TagA, tagP := 17,
    colA := fun _ _ => 8, colB := fun _ _ => 0, zOf := fun _ _ _ => 1 }

theorem c4P_eq : c4P = c4PLit := by
  unfold c4P c4PLit Fast.mkParams
  rw [show max 16 (16 ^ 1) = 16 from rfl, show (16 : ℕ) * 100 = 1600 from rfl,
    gnp_16, gnp_1600]
  rfl

/-- The update stream of the C4 counterexample: net vector
`a = (1, 0, 1, 0, …)` of length 16. -/
def c4Stream : List (ℕ × ℤ) := [(0, 1), (2, 1)]

set_option maxRecDepth 100000 in
set_option maxHeartbeats 1000000 in
/-- C4 counterexample: on the fast sampler with `n = 16`, seedable
randomness drawing witness `z = 1` everywhere, column hash
`h(i) = (8·i) mod 17 mod 16` (indices 0 and 2 collide in column 0) and
the tag hash `c4TagA`, the stream `[(0,1), (2,1)]` makes every touched
cell pass the 1-sparse test spuriously: `get_sample` succeeds with
`(1, 2)`, but the sketched vector has `a[1] = 0 ≠ 2` — refuting support
containment for this choice of hash coefficients and witnesses. -/
theorem l0_sample_wrong_value :
    Fast.get_sample 0 c4P (Fast.runStream c4P [] c4Stream) = some (1, 2)
  ∧ net c4Stream 1 = 0
  ∧ ((2 : ℤ) ≠ 0) := by
  rw [c4P_eq]
  refine ⟨by decide, by decide, by decide⟩

/-- Fold preservation of an invariant. -/
theorem foldl_preserve {α β : Type} (Q : β → Prop) (f : β → α → β) (l : List α)
    (hf : ∀ b a, Q b → Q (f b a)) :
    ∀ b : β, Q b → Q (l.foldl f b) := by
  induction l with
  | nil => intro b hb; exact hb
  | cons x xs ih => intro b hb; exact ih (f b x) (hf b x hb)

theorem sampleStep_preserve (P : Fast.Params) (cells : Fast.Cells)
    (key : ℕ × ℕ × ℕ) (acc : List (ℤ × ℤ)) (hacc : ∀ u ∈ acc, u.2 ≠ 0) :
    ∀ u ∈ Fast.sampleStep P cells key acc, u.2 ≠ 0 := by
  unfold Fast.sampleStep
  split
  · exact hacc
  · split
    · rename_i htest
      exact upsert_preserve (fun u => u.2 ≠ 0) acc _ _ hacc htest.1
    · exact hacc

theorem get_samples_values_nonzero (P : Fast.Params) (cells : Fast.Cells) :
    ∀ u ∈ Fast.get_samples P cells, u.2 ≠ 0 := by
  have h3 : ∀ (level row : ℕ) (cols : List ℕ) (b : List (ℤ × ℤ)),
      (∀ u ∈ b, u.2 ≠ 0) →
      ∀ u ∈ cols.foldl (fun acc3 col => Fast.sampleStep P cells (level, row, col) acc3) b,
        u.2 ≠ 0 := by
    intro level row cols
    exact foldl_preserve (fun acc => ∀ u ∈ acc, u.2 ≠ 0) _ cols
      (fun b col hb => sampleStep_preserve P cells (level, row, col) b hb)
  have h2 : ∀ (level : ℕ) (rows : List ℕ) (b : List (ℤ × ℤ)),
      (∀ u ∈ b, u.2 ≠ 0) →
      ∀ u ∈ rows.foldl (fun acc2 row =>
          (List.range P.columns).foldl
            (fun acc3 col => Fast.sampleStep P cells (level, row, col) acc3) acc2) b,
        u.2 ≠ 0 := by
    intro level rows
    exact foldl_preserve (fun acc => ∀ u ∈ acc, u.2 ≠ 0) _ rows
      (fun b row hb => h3 level row (List.range P.columns) b hb)
  have h1 : ∀ (levels : List ℕ) (b : List (ℤ × ℤ)),
      (∀ u ∈ b, u.2 ≠ 0) →
      ∀ u ∈ levels.foldl (fun acc level =>
          (List.range P.rows).foldl (fun acc2 row =>
            (List.range P.columns).foldl
              (fun acc3 col => Fast.sampleStep P cells (level, row, col) acc3) acc2) acc) b,
        u.2 ≠ 0 := by
    intro levels
    exact foldl_preserve (fun acc => ∀ u ∈ acc, u.2 ≠ 0) _ levels
      (fun b level hb => h2 level (List.range P.rows) b hb)
  unfold Fast.get_samples
  exact h1 (List.range P.levels) [] (by intro u hu; cases hu)

/-- Successful fast `get_sample()` results carry a non-zero value (each
merged entry passes the `fi != 0` test). -/
theorem fast_get_sample_nonzero (pick : ℕ) (P : Fast.Params) (cells : Fast.Cells)
    (i v : ℤ) (h : Fast.get_sample pick P cells = some (i, v)) : v ≠ 0 := by
  unfold Fast.get_sample at h
  by_cases hs : Fast.get_samples P cells = []
  · rw [if_pos hs] at h
    cases h
  · rw [if_neg hs] at h
    have hinj := Option.some.injEq _ _ ▸ h
    have hpair : ((Fast.get_samples P cells).map Prod.fst).getD
          (pick % ((Fast.get_samples P cells).map Prod.fst).length) 0 = i
        ∧ lookupZ (Fast.get_samples P cells)
            (((Fast.get_samples P cells).map Prod.fst).getD
              (pick % ((Fast.get_samples P cells).map Prod.fst).length) 0) = v := by
      have := Option.some_inj.mp h
      exact ⟨congrArg Prod.fst this, congrArg Prod.snd this⟩
    set samples := Fast.get_samples P cells with hsdef
    set keys := samples.map Prod.fst with hkdef
    have hlen : 0 < keys.length := by
      rw [hkdef, List.length_map]
      cases hsamp : samples with
      | nil => exact absurd hsamp hs
      | cons a l => simp
    have hmem : keys.getD (pick % keys.length) 0 ∈ keys := by
      rw [List.getD_eq_getElem keys 0 (Nat.mod_lt _ hlen)]
      exact List.getElem_mem _
    have hpairmem : (keys.getD (pick % keys.length) 0,
        lookupZ samples (keys.getD (pick % keys.length) 0)) ∈ samples :=
      lookupZ_mem samples _ (by rw [hkdef] at hmem ⊢; exact hmem)
    have hnz := get_samples_values_nonzero P cells _ hpairmem
    rw [hpair.2] at hnz
    exact hnz

/-- A minimal fast-sampler state on which `get_sample` succeeds, for the
witness. -/
def microP : Fast.Params :=
  { n := 1, levels := 1, rows := 1, columns := 1, prime_after_n := 2,
    one_sp_rec_p := 5, tagA := [1], tagP := 2,
    colA := fun _ _ => 1, colB := fun _ _ => 0, zOf := fun _ _ _ => 1 }

def microCells : Fast.Cells := [((0, 0, 0), ⟨1, 1, 1, 1⟩)]


/-! ### Reachability and the stored-`tau` range invariant (for C10) -/

/-- Plain 1-sparse states reachable from a construction by a stream. -/
def Plain.Reachable (st : Plain.OneSparseRecoverer) : Prop :=
  ∃ n z s, st = Plain.runStream (Plain.init n z) s

def Plain.osrInv (st : Plain.OneSparseRecoverer) : Prop :=
  0 < st.p ∧ 0 ≤ st.tau ∧ st.tau < st.p

theorem pymod_range {p : ℤ} (hp : 0 < p) (x : ℤ) :
    0 ≤ pymod x p ∧ pymod x p < p := by
  rw [pymod_eq_emod x (by omega)]
  exact ⟨Int.emod_nonneg x (by omega), Int.emod_lt_of_pos x hp⟩

theorem Plain.osrInv_update (st : Plain.OneSparseRecoverer) (i : ℕ) (Delta : ℤ)
    (h : Plain.osrInv st) : Plain.osrInv (Plain.update st i Delta) := by
  obtain ⟨hp, _, _⟩ := h
  exact ⟨hp, (pymod_range hp _).1, (pymod_range hp _).2⟩

theorem plainOsrP_pos (n : ℕ) : (0 : ℤ) < Plain.osrP n := by
  unfold Plain.osrP
  exact_mod_cast get_next_prime_pos (n * 100)

theorem srvOsrP_pos (n : ℕ) : (0 : ℤ) < SRV.osrP n := by
  unfold SRV.osrP
  exact_mod_cast get_next_prime_pos (n * n)

theorem Plain.reachable_osrInv (st : Plain.OneSparseRecoverer)
    (h : Plain.Reachable st) : Plain.osrInv st := by
  obtain ⟨n, z, s, rfl⟩ := h
  unfold Plain.runStream
  apply foldl_preserve Plain.osrInv _ s
    (fun b u hb => Plain.osrInv_update b u.1 u.2 hb)
  exact ⟨plainOsrP_pos n, le_rfl, plainOsrP_pos n⟩

theorem plain_update_zero (st : Plain.OneSparseRecoverer) (i : ℕ)
    (h : Plain.osrInv st) : Plain.update st i 0 = st := by
  obtain ⟨hp, h0, h1⟩ := h
  apply osr_eq <;> unfold Plain.update <;> simp only
  · rw [mul_zero, add_zero]
  · rw [add_zero]
  · rw [zero_mul, add_zero, pymod_self_of_range h0 h1]

def SRV.osrInvS (c : SRV.OneSparseRecoverer) : Prop :=
  0 < c.p ∧ 0 ≤ c.tau ∧ c.tau < c.p

theorem SRV.osrInvS_update (c : SRV.OneSparseRecoverer) (i : ℕ) (Delta : ℤ)
    (h : SRV.osrInvS c) : SRV.osrInvS (SRV.update c i Delta) := by
  obtain ⟨hp, _, _⟩ := h
  exact ⟨hp, (pymod_range hp _).1, (pymod_range hp _).2⟩

theorem srv_osr_eq (a b : SRV.OneSparseRecoverer) (h1 : a.n = b.n) (h2 : a.p = b.p)
    (h3 : a.z = b.z) (h4 : a.iota = b.iota) (h5 : a.fi = b.fi) (h6 : a.tau = b.tau) :
    a = b := by
  cases a; cases b; simp_all

theorem srv_cell_update_zero (c : SRV.OneSparseRecoverer) (i : ℕ)
    (h : SRV.osrInvS c) : SRV.update c i 0 = c := by
  obtain ⟨hp, h0, h1⟩ := h
  apply srv_osr_eq <;> unfold SRV.update <;> simp only
  · rw [mul_zero, add_zero]
  · rw [add_zero]
  · rw [zero_mul, add_zero, pymod_self_of_range h0 h1]

/-- Range invariant for the inlined grid cells of `plain_v2`. -/
def gridInv (p : ℤ) (R : List (List Cell)) : Prop :=
  ∀ row ∈ R, ∀ c ∈ row, 0 ≤ c.tau ∧ c.tau < p

theorem cellUpdate_range {p : ℤ} (hp : 0 < p) (i : ℕ) (Delta : ℤ) (c : Cell) :
    0 ≤ (cellUpdate p i Delta c).tau ∧ (cellUpdate p i Delta c).tau < p :=
  pymod_range hp _

theorem cell_eq (a b : Cell) (h1 : a.z = b.z) (h2 : a.iota = b.iota)
    (h3 : a.fi = b.fi) (h4 : a.tau = b.tau) : a = b := by
  cases a; cases b; simp_all

theorem cellUpdate_zero {p : ℤ} (hp : 0 < p) (i : ℕ) (c : Cell)
    (h : 0 ≤ c.tau ∧ c.tau < p) : cellUpdate p i 0 c = c := by
  apply cell_eq <;> unfold cellUpdate <;> simp only
  · rw [mul_zero, add_zero]
  · rw [add_zero]
  · rw [zero_mul, add_zero, pymod_self_of_range h.1 h.2]

theorem updateRows_inv {p : ℤ} (hp : 0 < p) (hash : ℕ → ℕ → ℕ) (i : ℕ) (Delta : ℤ) :
    ∀ (R : List (List Cell)) (l0 : ℕ), gridInv p R →
      gridInv p (PlainV2.updateRows p hash i Delta l0 R) := by
  intro R
  induction R with
  | nil => intro l0 _; intro row hrow; cases hrow
  | cons row rest ih =>
    intro l0 hR
    intro r hr
    rcases List.mem_cons.mp hr with h1 | h2
    · subst h1
      exact setAt_preserve _ _ row _ (fun c _ _ => cellUpdate_range hp i Delta c)
        (hR row (List.mem_cons_self _ _))
    · exact ih (l0 + 1) (fun w hw => hR w (List.mem_cons_of_mem _ hw)) r h2

theorem updateRows_zero {p : ℤ} (hp : 0 < p) (hash : ℕ → ℕ → ℕ) (i : ℕ) :
    ∀ (R : List (List Cell)) (l0 : ℕ), gridInv p R →
      PlainV2.updateRows p hash i 0 l0 R = R := by
  intro R
  induction R with
  | nil => intro l0 _; rfl
  | cons row rest ih =>
    intro l0 hR
    show setAt row (hash l0 i) (cellUpdate p i 0) :: PlainV2.updateRows p hash i 0 (l0 + 1) rest
        = row :: rest
    rw [setAt_congr_id _ _ _
      (fun c hc => cellUpdate_zero hp i c (hR row (List.mem_cons_self _ _) c hc)),
      ih (l0 + 1) (fun w hw => hR w (List.mem_cons_of_mem _ hw))]

def v2Inv (st : PlainV2.SparseRecoverer) : Prop := 0 < st.p ∧ gridInv st.p st.R

theorem v2Inv_update (st : PlainV2.SparseRecoverer) (i : ℕ) (Delta : ℤ)
    (h : v2Inv st) : v2Inv (PlainV2.update st i Delta) :=
  ⟨h.1, updateRows_inv h.1 st.hash i Delta st.R 0 h.2⟩

theorem v2Inv_mkFresh (n s rows columns : ℕ) (hash : ℕ → ℕ → ℕ) (zOf : ℕ → ℕ → ℤ) :
    v2Inv (PlainV2.mkFresh n s rows columns hash zOf) := by
  have hp : (0 : ℤ) < ((get_next_prime (n * 100) : ℕ) : ℤ) := by
    exact_mod_cast get_next_prime_pos (n * 100)
  refine ⟨hp, ?_⟩
  intro row hrow c hc
  obtain ⟨r, _, rfl⟩ := List.mem_map.mp hrow
  obtain ⟨j, _, rfl⟩ := List.mem_map.mp hc
  exact ⟨le_rfl, hp⟩

theorem PlainV2.reachable_v2Inv (st : PlainV2.SparseRecoverer)
    (h : PlainV2.Reachable st) : v2Inv st := by
  obtain ⟨n, s, rows, columns, hash, zOf, stream, rfl⟩ := h
  unfold PlainV2.runStream
  apply foldl_preserve v2Inv _ stream (fun b u hb => v2Inv_update b u.1 u.2 hb)
  exact v2Inv_mkFresh n s rows columns hash zOf

theorem v2_update_zero (st : PlainV2.SparseRecoverer) (i : ℕ)
    (h : v2Inv st) : PlainV2.update st i 0 = st := by
  unfold PlainV2.update
  rw [updateRows_zero h.1 st.hash i st.R 0 h.2]

/-- Range invariant for the `sparse_recovery` grids used by the plain
L0-sampler. -/
def gridInvS (R : List (List SRV.OneSparseRecoverer)) : Prop :=
  ∀ row ∈ R, ∀ c ∈ row, SRV.osrInvS c

theorem updateRowsS_inv (hash : ℕ → ℕ → ℕ) (i : ℕ) (Delta : ℤ) :
    ∀ (R : List (List SRV.OneSparseRecoverer)) (l0 : ℕ), gridInvS R →
      gridInvS (SRV.updateRowsS hash i Delta l0 R) := by
  intro R
  induction R with
  | nil => intro l0 _; intro row hrow; cases hrow
  | cons row rest ih =>
    intro l0 hR
    intro r hr
    rcases List.mem_cons.mp hr with h1 | h2
    · subst h1
      exact setAt_preserve _ _ row _ (fun c _ hc => SRV.osrInvS_update c i Delta hc)
        (hR row (List.mem_cons_self _ _))
    · exact ih (l0 + 1) (fun w hw => hR w (List.mem_cons_of_mem _ hw)) r h2

theorem updateRowsS_zero (hash : ℕ → ℕ → ℕ) (i : ℕ) :
    ∀ (R : List (List SRV.OneSparseRecoverer)) (l0 : ℕ), gridInvS R →
      SRV.updateRowsS hash i 0 l0 R = R := by
  intro R
  induction R with
  | nil => intro l0 _; rfl
  | cons row rest ih =>
    intro l0 hR
    show setAt row (hash l0 i) (fun c => SRV.update c i 0)
          :: SRV.updateRowsS hash i 0 (l0 + 1) rest
        = row :: rest
    rw [setAt_congr_id _ _ _
      (fun c hc => srv_cell_update_zero c i (hR row (List.mem_cons_self _ _) c hc)),
      ih (l0 + 1) (fun w hw => hR w (List.mem_cons_of_mem _ hw))]

theorem SRV.srUpdate_inv (st : SRV.SparseRecoverer) (i : ℕ) (Delta : ℤ)
    (h : gridInvS st.R) : gridInvS (SRV.srUpdate st i Delta).R :=
  updateRowsS_inv st.hash i Delta st.R 0 h

theorem SRV.srUpdate_zero (st : SRV.SparseRecoverer) (i : ℕ)
    (h : gridInvS st.R) : SRV.srUpdate st i 0 = st := by
  unfold SRV.srUpdate
  rw [updateRowsS_zero st.hash i st.R 0 h]

def l0Inv (st : L0.L0Sampler) : Prop := ∀ g ∈ st.recoverers, gridInvS g.R

theorem levelMap_inv (n : ℕ) (tag : ℕ → ℕ) (i : ℕ) (Delta : ℤ) :
    ∀ (recs : List SRV.SparseRecoverer) (l0 : ℕ), (∀ g ∈ recs, gridInvS g.R) →
      ∀ g ∈ L0.levelMap n tag i Delta l0 recs, gridInvS g.R := by
  intro recs
  induction recs with
  | nil => intro l0 _ g hg; cases hg
  | cons r rest ih =>
    intro l0 hR g hg
    rcases List.mem_cons.mp hg with h1 | h2
    · subst h1
      by_cases hc : tag i < n >>> l0
      · rw [if_pos hc]
        exact SRV.srUpdate_inv r i Delta (hR r (List.mem_cons_self _ _))
      · rw [if_neg hc]
        exact hR r (List.mem_cons_self _ _)
    · exact ih (l0 + 1) (fun w hw => hR w (List.mem_cons_of_mem _ hw)) g h2

theorem levelMap_zero (n : ℕ) (tag : ℕ → ℕ) (i : ℕ) :
    ∀ (recs : List SRV.SparseRecoverer) (l0 : ℕ), (∀ g ∈ recs, gridInvS g.R) →
      L0.levelMap n tag i 0 l0 recs = recs := by
  intro recs
  induction recs with
  | nil => intro l0 _; rfl
  | cons r rest ih =>
    intro l0 hR
    show (if tag i < n >>> l0 then SRV.srUpdate r i 0 else r)
          :: L0.levelMap n tag i 0 (l0 + 1) rest
        = r :: rest
    rw [ih (l0 + 1) (fun w hw => hR w (List.mem_cons_of_mem _ hw))]
    congr 1
    split
    · exact SRV.srUpdate_zero r i (hR r (List.mem_cons_self _ _))
    · rfl

theorem l0Inv_updateCore (st : L0.L0Sampler) (i : ℕ) (Delta : ℤ)
    (h : l0Inv st) : l0Inv (L0.updateCore st i Delta) :=
  levelMap_inv st.n st.tag i Delta st.recoverers 0 h

theorem gridInvS_mkFresh (n s rows columns : ℕ) (hash : ℕ → ℕ → ℕ)
    (zOf : ℕ → ℕ → ℤ) : gridInvS (SRV.mkFresh n s rows columns hash zOf).R := by
  intro row hrow c hc
  obtain ⟨r, _, rfl⟩ := List.mem_map.mp hrow
  obtain ⟨j, _, rfl⟩ := List.mem_map.mp hc
  exact ⟨srvOsrP_pos n, le_rfl, srvOsrP_pos n⟩

theorem L0.reachable_l0Inv (st : L0.L0Sampler) (h : L0.Reachable st) : l0Inv st := by
  obtain ⟨n, tag, recs, stream, hfresh, _, rfl⟩ := h
  unfold L0.runStream
  apply foldl_preserve l0Inv _ stream (fun b u hb => l0Inv_updateCore b u.1 u.2 hb)
  intro g hg
  obtain ⟨s, rows, columns, hash, zOf, rfl⟩ := hfresh g hg
  exact gridInvS_mkFresh n s rows columns hash zOf

theorem L0.updateCore_zero (st : L0.L0Sampler) (i : ℕ) (h : l0Inv st) :
    L0.updateCore st i 0 = st := by
  unfold L0.updateCore
  rw [levelMap_zero st.n st.tag i st.recoverers 0 h]

/-- C10: a zero-delta update is an identity on every reachable state of
the plain 1-sparse recoverer, the `plain_v2` s-sparse recoverer and the
L0-sampler (for in-range indices, where `update` passes validation): no
counter of any cell changes, so no subsequent `recover()`/`get_sample()`
result can change either. -/
theorem zero_delta_update_identity :
    (∀ st : Plain.OneSparseRecoverer, Plain.Reachable st →
      ∀ i : ℕ, Plain.update st i 0 = st)
  ∧ (∀ st : PlainV2.SparseRecoverer, PlainV2.Reachable st →
      ∀ i : ℕ, PlainV2.update st i 0 = st)
  ∧ (∀ st : L0.L0Sampler, L0.Reachable st →
      ∀ i : ℕ, i < st.n → L0.update st i 0 = some st) := by
  refine ⟨?_, ?_, ?_⟩
  · intro st h i
    exact plain_update_zero st i (Plain.reachable_osrInv st h)
  · intro st h i
    exact v2_update_zero st i (PlainV2.reachable_v2Inv st h)
  · intro st h i hi
    unfold L0.update
    rw [if_pos hi, L0.updateCore_zero st i (L0.reachable_l0Inv st h)]

def c10Osr : Plain.OneSparseRecoverer := Plain.init 1 1

def c10Grid : PlainV2.SparseRecoverer :=
  PlainV2.mkFresh 1 1 1 2 (fun _ _ => 0) (fun _ _ => 1)

def c10SRGrid : SRV.SparseRecoverer :=
  SRV.mkFresh 1 1 1 2 (fun _ _ => 0) (fun _ _ => 1)

def c10L0 : L0.L0Sampler := ⟨1, fun _ => 0, [c10SRGrid]⟩

/-- Witness for C10 on freshly constructed states of all three
structures. -/
theorem zero_delta_update_identity_witness :
    (Plain.Reachable c10Osr ∧ PlainV2.Reachable c10Grid ∧ L0.Reachable c10L0
      ∧ 0 < c10L0.n)
  ∧ (Plain.update c10Osr 0 0 = c10Osr
    ∧ PlainV2.update c10Grid 0 0 = c10Grid
    ∧ L0.update c10L0 0 0 = some c10L0) := by
  have h1 : Plain.Reachable c10Osr := ⟨1, 1, [], rfl⟩
  have h2 : PlainV2.Reachable c10Grid :=
    ⟨1, 1, 1, 2, (fun _ _ => 0), (fun _ _ => 1), [], rfl⟩
  have h3 : L0.Reachable c10L0 := by
    refine ⟨1, (fun _ => 0), [c10SRGrid], [], ?_, ?_, rfl⟩
    · intro g hg
      rw [List.mem_singleton] at hg
      subst hg
      exact ⟨1, 1, 2, (fun _ _ => 0), (fun _ _ => 1), rfl⟩
    · intro u hu
      cases hu
  refine ⟨⟨h1, h2, h3, Nat.one_pos⟩,
    zero_delta_update_identity.1 c10Osr h1 0,
    zero_delta_update_identity.2.1 c10Grid h2 0,
    zero_delta_update_identity.2.2 c10L0 h3 0 Nat.one_pos⟩

/-! ### `get_sample` of the plain L0-sampler — `src/L0Sampler.py`

The source builds `result = {}`, then for each level calls the level's
s-sparse `recover()` (which can raise `TypeError`, see `SRV.srRecover`);
on a dict result it picks `random.choice(list(keys))` and stores
`result[key] = recover_result[key]`; finally it returns one uniformly
chosen entry of `result`, or `None` when `result` is empty.  The two
`random.choice` draws are embedded as explicit index parameters
(`pickL` per level, `pickF` for the final draw), reduced modulo the
number of keys. -/

namespace L0

inductive SampleOutcome where
  | typeError : SampleOutcome
  | fail : SampleOutcome
  | pair : ℤ → ℤ → SampleOutcome
deriving DecidableEq

/-- The per-level loop of `get_sample`; `none` propagates the
`TypeError` raised inside a level's `recover()`. -/
def sampleLevels (pickL : ℕ → ℕ) :
    ℕ → List SRV.SparseRecoverer → List (ℤ × ℤ) → Option (List (ℤ × ℤ))
  | _, [], acc => some acc
  | l, g :: rest, acc =>
      match SRV.srRecover g with
      | .typeError => none
      | .fail => sampleLevels pickL (l + 1) rest acc
      | .recovered dict =>
          sampleLevels pickL (l + 1) rest
            (upsert acc
              ((dict.map Prod.fst).getD (pickL l % (dict.map Prod.fst).length) 0)
              (lookupZ dict
                ((dict.map Prod.fst).getD (pickL l % (dict.map Prod.fst).length) 0)))

def get_sample (pickL : ℕ → ℕ) (pickF : ℕ) (st : L0Sampler) : SampleOutcome :=
  match sampleLevels pickL 0 st.recoverers [] with
  | none => .typeError
  | some result =>
      if result = [] then .fail
      else .pair ((result.map Prod.fst).getD (pickF % (result.map Prod.fst).length) 0)
        (lookupZ result
          ((result.map Prod.fst).getD (pickF % (result.map Prod.fst).length) 0))

end L0

/-- The pair a `random.choice` over the keys of a non-empty dict reads
back is one of the dict's entries. -/
theorem pickPair_mem (l : List (ℤ × ℤ)) (hne : l ≠ []) (pick : ℕ) :
    ((l.map Prod.fst).getD (pick % (l.map Prod.fst).length) 0,
      lookupZ l ((l.map Prod.fst).getD (pick % (l.map Prod.fst).length) 0)) ∈ l := by
  have hlen : 0 < (l.map Prod.fst).length := by
    rw [List.length_map]
    cases l with
    | nil => exact absurd rfl hne
    | cons a t => simp
  have hmem : (l.map Prod.fst).getD (pick % (l.map Prod.fst).length) 0 ∈ l.map Prod.fst := by
    rw [List.getD_eq_getElem _ 0 (Nat.mod_lt _ hlen)]
    exact List.getElem_mem _
  exact lookupZ_mem l _ hmem

theorem srv_recover_pair_nonzero (c : SRV.OneSparseRecoverer) (k v : ℤ)
    (h : SRV.recover c = SRV.RecoverResult.pair k v) : v ≠ 0 := by
  unfold SRV.recover at h
  split at h
  · exact absurd h (by simp)
  · split at h
    · rename_i hfi _
      injection h with h1 h2
      subst h2
      exact hfi
    · exact absurd h (by simp)

theorem srRecoverRow_nonzero :
    ∀ (row : List SRV.OneSparseRecoverer) (acc acc2 : List (ℤ × ℤ)),
      (∀ u ∈ acc, u.2 ≠ 0) → SRV.srRecoverRow row acc = some acc2 →
      ∀ u ∈ acc2, u.2 ≠ 0 := by
  intro row
  induction row with
  | nil =>
    intro acc acc2 hacc h
    injection h with h1
    rw [← h1]
    exact hacc
  | cons c cs ih =>
    intro acc acc2 hacc h
    unfold SRV.srRecoverRow at h
    split at h
    · rename_i k v heq
      exact ih _ acc2
        (upsert_preserve _ acc k v hacc (srv_recover_pair_nonzero c k v heq)) h
    · cases h

theorem srRecoverRows_nonzero :
    ∀ (R : List (List SRV.OneSparseRecoverer)) (acc acc2 : List (ℤ × ℤ)),
      (∀ u ∈ acc, u.2 ≠ 0) → SRV.srRecoverRows R acc = some acc2 →
      ∀ u ∈ acc2, u.2 ≠ 0 := by
  intro R
  induction R with
  | nil =>
    intro acc acc2 hacc h
    injection h with h1
    rw [← h1]
    exact hacc
  | cons row rest ih =>
    intro acc acc2 hacc h
    unfold SRV.srRecoverRows at h
    split at h
    · cases h
    · rename_i acc3 heq
      exact ih acc3 acc2 (srRecoverRow_nonzero row acc acc3 hacc heq) h

theorem srRecover_recovered_nonzero (st : SRV.SparseRecoverer) (dict : List (ℤ × ℤ))
    (h : SRV.srRecover st = SRV.SRRecoverOutcome.recovered dict) :
    dict ≠ [] ∧ ∀ u ∈ dict, u.2 ≠ 0 := by
  unfold SRV.srRecover at h
  split at h
  · cases h
  · rename_i acc heq
    split at h
    · cases h
    · rename_i hne
      injection h with h1
      rw [← h1]
      exact ⟨hne, srRecoverRows_nonzero st.R [] acc (by intro u hu; cases hu) heq⟩

theorem sampleLevels_nonzero (pickL : ℕ → ℕ) :
    ∀ (recs : List SRV.SparseRecoverer) (l0 : ℕ) (acc res : List (ℤ × ℤ)),
      (∀ u ∈ acc, u.2 ≠ 0) → L0.sampleLevels pickL l0 recs acc = some res →
      ∀ u ∈ res, u.2 ≠ 0 := by
  intro recs
  induction recs with
  | nil =>
    intro l0 acc res hacc h
    injection h with h1
    rw [← h1]
    exact hacc
  | cons g rest ih =>
    intro l0 acc res hacc h
    unfold L0.sampleLevels at h
    split at h
    · cases h
    · exact ih (l0 + 1) acc res hacc h
    · rename_i dict heq
      obtain ⟨hne, hvals⟩ := srRecover_recovered_nonzero g dict heq
      refine ih (l0 + 1) _ res (upsert_preserve _ acc _ _ hacc ?_) h
      exact hvals _ (pickPair_mem dict hne (pickL l0))

/-- C4 amended: in both samplers, whenever `get_sample()` yields a pair
`(i, v)` — rather than Fail (or, in the plain sampler, the `TypeError`
its recover path can raise, see C5) — the value satisfies `v ≠ 0`; the
stronger support-containment part of the claim, that `v` equals the
current value `a[i]` for every choice of the hash coefficients and
witnesses, is refuted by the counterexample. -/
theorem get_sample_value_nonzero :
    (∀ (pickL : ℕ → ℕ) (pickF : ℕ) (st : L0.L0Sampler) (i v : ℤ),
      L0.get_sample pickL pickF st = L0.SampleOutcome.pair i v → v ≠ 0)
  ∧ (∀ (pick : ℕ) (P : Fast.Params) (cells : Fast.Cells) (i v : ℤ),
      Fast.get_sample pick P cells = some (i, v) → v ≠ 0) := by
  constructor
  · intro pickL pickF st i v h
    unfold L0.get_sample at h
    split at h
    · cases h
    · rename_i result heq
      split at h
      · cases h
      · rename_i hne
        injection h with h1 h2
        have hvals := sampleLevels_nonzero pickL st.recoverers 0 [] result
          (by intro u hu; cases hu) heq
        have hm := hvals _ (pickPair_mem result hne pickF)
        rw [← h2]
        exact hm
  · exact fast_get_sample_nonzero

/-- A one-level plain L0-sampler whose single cell holds the exact
singleton `a[0] = 5` (with `p = 3`, `z = 1`), so `get_sample` succeeds. -/
def microSRGrid : SRV.SparseRecoverer := ⟨1, 1, 1, fun _ _ => 0, [[⟨1, 3, 1, 5, 5, 2⟩]]⟩

def microL0 : L0.L0Sampler := ⟨1, fun _ => 0, [microSRGrid]⟩

/-- Witness for the amended C4 on both samplers: each successful sample
has a non-zero value. -/
theorem get_sample_value_nonzero_witness :
    (L0.get_sample (fun _ => 0) 0 microL0 = L0.SampleOutcome.pair 0 5 ∧ (5 : ℤ) ≠ 0)
  ∧ (Fast.get_sample 0 microP microCells = some (0, 1) ∧ (1 : ℤ) ≠ 0) :=
  ⟨⟨by decide, get_sample_value_nonzero.1 (fun _ => 0) 0 microL0 0 5 (by decide)⟩,
   ⟨by decide, get_sample_value_nonzero.2 0 microP microCells 0 1 (by decide)⟩⟩
